import Mathlib

/-!
Shallow embedding of `src/inventory_tool.py`, a CLI that reads a CSV device
inventory, looks devices up by name, and exports the inventory to JSON or YAML.

Strings are modelled as `List Char` (a Python `str` without lone surrogates).
A Python dict with `str` keys whose values are either `str` or `None` is
modelled as an insertion-ordered association list `List (Str × Option Str)`.
File contents and file systems are modelled explicitly; exceptions raised by
library calls are modelled as explicit events or `Except` results.
-/

set_option maxRecDepth 10000

abbrev Str := List Char

/-- A Python dict mapping `str` keys to values that are `str` or `None`
(`None` is `Option.none`), in insertion order. -/
abbrev Record := List (Str × Option Str)

/-- Python `d[k] = v` on an insertion-ordered dict: overwrite in place when the
key is present, append otherwise. -/
def dictInsert (d : List (Str × α)) (k : Str) (v : α) : List (Str × α) :=
  if d.any (fun p => p.1 == k) then
    d.map (fun p => if p.1 == k then (k, v) else p)
  else d ++ [(k, v)]

/-- Lookup of a key in an association list (first occurrence). -/
def assocFind (d : List (Str × α)) (k : Str) : Option α :=
  match d with
  | [] => none
  | (k2, v) :: rest => if k2 == k then some v else assocFind rest k

/-- Python `d.get(k)` on a `Record`: `None` both when the key is absent and
when the stored value is `None`. -/
def pyGet (d : Record) (k : Str) : Option Str :=
  (assocFind d k).getD none

/-! ## CSV reading (`read_inventory`, lines 18–39)

`csv.reader` splits each line of the file into fields; `csv.DictReader` takes
the first row as field names and turns each later row into a dict.  The file
object is modelled as a list of line events: a successfully decoded line, or
the point at which iteration raises (decode error, `csv.Error`, ...).  Quoted
fields are modelled per line; a quoted field containing a newline (which the
real reader would reassemble across lines) and `DictReader`'s `restkey` entry
for rows longer than the header are not modelled — no claim depends on them. -/

/-- One step of iterating the open file: a decoded line (without its trailing
newline), or an exception raised by the iteration. -/
inductive LineEvent
  | line (s : Str)
  | ioError (e : Str)
deriving DecidableEq

/-- What `open(filename)` followed by iteration can observe. -/
inductive FileData
  | absent
  | openFail (e : Str)
  | present (events : List LineEvent)
deriving DecidableEq

/-- Field splitting of one line, excel dialect: fields separated by `,`;
a field starting with `"` is quoted, `""` inside quotes is a literal quote. -/
def fieldsAux : List Char → Bool → List Char → List (List Char) → List (List Char)
  | [], _, cur, acc => (cur.reverse :: acc).reverse
  | '"' :: '"' :: cs, true, cur, acc => fieldsAux cs true ('"' :: cur) acc
  | '"' :: cs, true, cur, acc => fieldsAux cs false cur acc
  | c :: cs, true, cur, acc => fieldsAux cs true (c :: cur) acc
  | c :: cs, false, cur, acc =>
    if c = ',' then fieldsAux cs false [] (cur.reverse :: acc)
    else if c = '"' && cur.isEmpty then fieldsAux cs true cur acc
    else fieldsAux cs false (c :: cur) acc
/-- `csv.reader` on a single line: a blank line yields no fields. -/
def splitFields (line : Str) : List Str :=
  if line.isEmpty then [] else fieldsAux line false [] []

/-- `dict(zip(fieldnames, row))`, then `DictReader`'s `restval` fill: field
names beyond the row's length get value `None`. -/
def dictOfZip (fns : List Str) (row : List Str) : Record :=
  let d := (fns.zip row).foldl (fun acc p => dictInsert acc p.1 (some p.2)) []
  (fns.drop row.length).foldl (fun acc k => dictInsert acc k none) d

def sErrReading : Str := "Error reading inventory: ".data
def sNotFound1 : Str := "Error: Inventory file ".data
def sNotFound2 : Str := " not found".data

/-- The `for row in reader: devices.append(row)` loop after the header row:
blank rows are skipped; an exception ends the loop, is reported by the
`except` clause, and the rows appended so far are returned. -/
def readLoop (fns : List Str) : List LineEvent → List Record → List Str × List Record
  | [], acc => ([], acc)
  | .ioError e :: _, acc => ([sErrReading ++ e], acc)
  | .line l :: rest, acc =>
    let row := splitFields l
    if row.isEmpty then readLoop fns rest acc
    else readLoop fns rest (acc ++ [dictOfZip fns row])

/-- `read_inventory(filename)` (lines 18–39): returns the printed messages and
the `devices` list. -/
def read_inventory (fd : FileData) (filename : Str) : List Str × List Record :=
  match fd with
  | .absent => ([sNotFound1 ++ filename ++ sNotFound2], [])
  | .openFail e => ([sErrReading ++ e], [])
  | .present evs =>
    match evs with
    | [] => ([], [])
    | .ioError e :: _ => ([sErrReading ++ e], [])
    | .line l :: rest => readLoop (splitFields l) rest []

/-! ## `get_device_data` (lines 41–55) -/

def sName : Str := "Name".data

/-- `get_device_data(inventory_data, device_name)`: linear scan comparing
`device.get('Name') == device_name`. -/
def get_device_data (inventory_data : List Record) (device_name : Str) : Option Record :=
  match inventory_data with
  | [] => none
  | device :: rest =>
    if pyGet device sName == some device_name then some device
    else get_device_data rest device_name

/-! ## Rendering a valid CSV file (used to state the claims about `load`) -/

/-- Join lines into a file body, each line followed by a newline. -/
def joinLines (ls : List Str) : Str :=
  (ls.map (fun l => l ++ ['\n'])).flatten

/-- Join fields of one line with commas. -/
def joinFields (fs : List Str) : Str :=
  match fs with
  | [] => []
  | [f] => f
  | f :: rest => f ++ ',' :: joinFields rest

/-- The text of a CSV file with the given header line and data rows. -/
def csvRender (header : List Str) (rows : List (List Str)) : Str :=
  joinLines (joinFields header :: rows.map joinFields)

/-- Splitting file text into the lines that iterating the file object yields
(universal-newline text mode: separators are `\n`; a final line without a
trailing newline still counts). -/
def splitLinesCh : List Char → List Str
  | [] => []
  | c :: cs =>
    if c = '\n' then [] :: splitLinesCh cs
    else
      match splitLinesCh cs with
      | [] => [[c]]
      | l :: ls => (c :: l) :: ls

/-- The events of a file whose decoded text is `s` and whose read succeeds. -/
def linesOf (s : Str) : List LineEvent :=
  (splitLinesCh s).map .line

/-- A CSV field is simple when it contains no separator, quote or newline
character; such fields need no quoting. -/
def simpleField (f : Str) : Prop :=
  ∀ c ∈ f, c ≠ ',' ∧ c ≠ '\n' ∧ c ≠ '\r' ∧ c ≠ '"'

/-- The parsed records of a valid CSV file: each data row zipped with the
header, every value present. -/
def csvRecords (header : List Str) (rows : List (List Str)) : List Record :=
  rows.map (fun r => (header.zip r).map (fun p => (p.1, some p.2)))

/-- All the side conditions that make `header`/`rows` a valid simple CSV
table: distinct header names, fields needing no quoting, rows as wide as the
header, and no line empty. -/
def validCsv (header : List Str) (rows : List (List Str)) : Prop :=
  header.Nodup ∧ (∀ f ∈ header, simpleField f) ∧ joinFields header ≠ [] ∧
    (∀ r ∈ rows, ∀ f ∈ r, simpleField f) ∧
    (∀ r ∈ rows, r.length = header.length) ∧
    (∀ r ∈ rows, joinFields r ≠ [])

instance (header : List Str) (rows : List (List Str)) :
    Decidable (validCsv header rows) := by
  unfold validCsv simpleField
  infer_instance

/-! ## JSON export (`write_json`, lines 57–70)

`json.dump(data, file, indent=2)` with its default `ensure_ascii=True`:
strings are double-quoted with `\"`, `\\`, the short escapes for backspace,
tab, newline, form feed and carriage return, and `\uXXXX` for every other
character outside printable ASCII (astral characters as a surrogate pair);
the list is laid out one object per line at indent 2, one member per line at
indent 4.  `jsonParse` is a standard JSON reader for this array-of-objects
shape; parsing a lone surrogate escape (which Python would accept but which
no `Char` can hold, and which the encoder never emits) fails. -/

/-- Lowercase hex digit. -/
def hexDig (d : Nat) : Char :=
  if d < 10 then Char.ofNat (48 + d) else Char.ofNat (87 + d)

/-- Four lowercase hex digits of `n < 0x10000`. -/
def hex4 (n : Nat) : Str :=
  [hexDig (n / 4096 % 16), hexDig (n / 256 % 16), hexDig (n / 16 % 16),
   hexDig (n % 16)]

/-- The escape of one character in a Python `json` string literal. -/
def encodeJChar (c : Char) : Str :=
  if c = '"' then ['\\', '"']
  else if c = '\\' then ['\\', '\\']
  else if 0x20 ≤ c.toNat ∧ c.toNat ≤ 0x7E then [c]
  else if c.toNat = 8 then ['\\', 'b']
  else if c.toNat = 9 then ['\\', 't']
  else if c.toNat = 10 then ['\\', 'n']
  else if c.toNat = 12 then ['\\', 'f']
  else if c.toNat = 13 then ['\\', 'r']
  else if c.toNat < 0x10000 then '\\' :: 'u' :: hex4 c.toNat
  else '\\' :: 'u' :: hex4 (0xD800 + (c.toNat - 0x10000) / 0x400)
    ++ '\\' :: 'u' :: hex4 (0xDC00 + (c.toNat - 0x10000) % 0x400)

/-- A JSON string literal, quotes included. -/
def encodeJString (s : Str) : Str :=
  '"' :: (s.map encodeJChar).flatten ++ ['"']

/-- A JSON value of a record: a string or `null`. -/
def jsonVal : Option Str → Str
  | none => ['n', 'u', 'l', 'l']
  | some s => encodeJString s

/-- One `"key": value` member. -/
def memberStr (p : Str × Option Str) : Str :=
  encodeJString p.1 ++ ':' :: ' ' :: jsonVal p.2

/-- The members of an object, separated by `,\n` plus the indent of 4. -/
def emitMembers : Record → Str
  | [] => []
  | [p] => memberStr p
  | p :: ps => memberStr p ++ ',' :: '\n' :: ' ' :: ' ' :: ' ' :: ' ' :: emitMembers ps

/-- One object at indent 2, members at indent 4. -/
def encodeObj (r : Record) : Str :=
  match r with
  | [] => [' ', ' ', '{', '}']
  | _ => ' ' :: ' ' :: '{' :: '\n' :: ' ' :: ' ' :: ' ' :: ' ' ::
      (emitMembers r ++ '\n' :: ' ' :: ' ' :: ['}'])

/-- The array items, separated by `,\n`. -/
def emitItems : List Record → Str
  | [] => []
  | [r] => encodeObj r
  | r :: rs => encodeObj r ++ ',' :: '\n' :: emitItems rs

/-- The exact text `json.dump(data, file, indent=2)` writes for a list of
records. -/
def jsonEncode (rs : List Record) : Str :=
  match rs with
  | [] => ['[', ']']
  | _ => '[' :: '\n' :: emitItems rs ++ '\n' :: [']']

/-! ### A JSON reader for the emitted shape -/

def isWsCh (c : Char) : Bool :=
  c = ' ' || c = '\n' || c = '\t' || c = '\r'

def skipWs (s : Str) : Str := s.dropWhile isWsCh

def hexVal (c : Char) : Option Nat :=
  if '0' ≤ c ∧ c ≤ '9' then some (c.toNat - 48)
  else if 'a' ≤ c ∧ c ≤ 'f' then some (c.toNat - 87)
  else if 'A' ≤ c ∧ c ≤ 'F' then some (c.toNat - 55)
  else none

/-- A character from a code point, `none` when the code point is invalid. -/
def mkChar (n : Nat) : Option Char :=
  if Nat.isValidChar n then some (Char.ofNat n) else none

def hex4Val (a b c d : Char) : Option Nat :=
  match hexVal a, hexVal b, hexVal c, hexVal d with
  | some x1, some x2, some x3, some x4 => some (x1 * 4096 + x2 * 256 + x3 * 16 + x4)
  | _, _, _, _ => none

/-- The named escapes of a JSON string. -/
def unescJ (e : Char) : Option Char :=
  if e = '"' then some '"'
  else if e = '\\' then some '\\'
  else if e = '/' then some '/'
  else if e = 'b' then some (Char.ofNat 8)
  else if e = 'f' then some (Char.ofNat 12)
  else if e = 'n' then some '\n'
  else if e = 'r' then some (Char.ofNat 13)
  else if e = 't' then some '\t'
  else none

/-- Combining the two halves of a surrogate pair once the low half `m` is
read. -/
def parseJEscFin (n m : Nat) (r4 : Str) : Option (Char × Str) :=
  if 0xDC00 ≤ m ∧ m < 0xE000 then
    (mkChar (0x10000 + (n - 0xD800) * 0x400 + (m - 0xDC00))).map (fun ch => (ch, r4))
  else none

/-- The low half of a `\uXXXX\uXXXX` surrogate pair: after the hi code `n`
and the second backslash-u, reads four hex digits and combines. -/
def parseJEscU3 (n : Nat) (r3 : Str) : Option (Char × Str) :=
  match r3 with
  | q1 :: q2 :: q3 :: q4 :: r4 =>
    match hex4Val q1 q2 q3 q4 with
    | none => none
    | some m => parseJEscFin n m r4
  | _ => none

/-- The second `\uXXXX` of a surrogate pair. -/
def parseJEscPair (n : Nat) (r2 : Str) : Option (Char × Str) :=
  match r2 with
  | e2 :: u2 :: r3 => if e2 = '\\' ∧ u2 = 'u' then parseJEscU3 n r3 else none
  | _ => none

/-- After the four hex digits of `\uXXXX` with value `n`: either the start of
a surrogate pair or a single BMP character. -/
def parseJEscU2 (n : Nat) (r2 : Str) : Option (Char × Str) :=
  if 0xD800 ≤ n ∧ n < 0xDC00 then parseJEscPair n r2
  else (mkChar n).map (fun ch => (ch, r2))

/-- After `\u`: four hex digits, then `parseJEscU2`. -/
def parseJEscU (r : Str) : Option (Char × Str) :=
  match r with
  | p1 :: p2 :: p3 :: p4 :: r2 =>
    match hex4Val p1 p2 p3 p4 with
    | none => none
    | some n => parseJEscU2 n r2
  | _ => none

/-- The escape sequence after a backslash. -/
def parseJEsc (r : Str) : Option (Char × Str) :=
  match r with
  | [] => none
  | e :: r1 =>
    if e = 'u' then parseJEscU r1
    else
      match unescJ e with
      | some ch => some (ch, r1)
      | none => none

/-- The body of a JSON string literal after the opening quote: the decoded
characters and the text after the closing quote.  The fuel bounds the number
of decoded characters; each decoded character consumes at least one input
character, so the input length is always enough fuel. -/
def parseJStrB : Nat → Str → Option (Str × Str)
  | 0, _ => none
  | _ + 1, [] => none
  | fuel + 1, c :: rest =>
    if c = '"' then some ([], rest)
    else if c = '\\' then
      match parseJEsc rest with
      | none => none
      | some (ch, r) =>
        match parseJStrB fuel r with
        | some pr => some (ch :: pr.1, pr.2)
        | none => none
    else
      match parseJStrB fuel rest with
      | some pr => some (c :: pr.1, pr.2)
      | none => none

/-- A JSON string literal including its opening quote. -/
def parseJString (s : Str) : Option (Str × Str) :=
  match s with
  | [] => none
  | c :: rest => if c = '"' then parseJStrB rest.length rest else none

/-- The word `null` after its first letter. -/
def parseNull (rest : Str) : Option (Option Str × Str) :=
  match rest with
  | u :: l1 :: l2 :: r2 =>
    if u = 'u' ∧ l1 = 'l' ∧ l2 = 'l' then some (none, r2) else none
  | _ => none

/-- A record value: a string literal or `null`. -/
def parseJValue (s : Str) : Option (Option Str × Str) :=
  match s with
  | [] => none
  | c :: rest =>
    if c = '"' then
      match parseJStrB rest.length rest with
      | some pr => some (some pr.1, pr.2)
      | none => none
    else if c = 'n' then parseNull rest
    else none

/-- The members of an object, positioned at the first key's quote; consumes
the closing brace. -/
def parseMembersJ : Nat → Str → Option (Record × Str)
  | 0, _ => none
  | fuel + 1, s =>
    match parseJString s with
    | none => none
    | some (k, r1) =>
      match skipWs r1 with
      | [] => none
      | c :: r3 =>
        if c = ':' then
          match parseJValue (skipWs r3) with
          | none => none
          | some (v, r4) =>
            match skipWs r4 with
            | [] => none
            | c2 :: r6 =>
              if c2 = ',' then
                match parseMembersJ fuel (skipWs r6) with
                | some (ps, r7) => some ((k, v) :: ps, r7)
                | none => none
              else if c2 = '}' then some ([(k, v)], r6)
              else none
        else none

/-- One object, leading whitespace allowed; consumes the closing brace. -/
def parseObject (fuel : Nat) (s : Str) : Option (Record × Str) :=
  match skipWs s with
  | [] => none
  | c :: r =>
    if c = '{' then
      match skipWs r with
      | [] => none
      | c2 :: r2 =>
        if c2 = '}' then some ([], r2)
        else parseMembersJ fuel (c2 :: r2)
    else none

/-- The items of a non-empty array; consumes the closing bracket. -/
def parseItemsJ : Nat → Str → Option (List Record × Str)
  | 0, _ => none
  | fuel + 1, s =>
    match parseObject (fuel + 1) s with
    | none => none
    | some (r, rest) =>
      match skipWs rest with
      | [] => none
      | c :: r2 =>
        if c = ',' then
          match parseItemsJ fuel r2 with
          | some (rs, r3) => some (r :: rs, r3)
          | none => none
        else if c = ']' then some ([r], r2)
        else none

/-- Parsing a JSON document holding an array of record objects. -/
def jsonParse (s : Str) : Option (List Record) :=
  match skipWs s with
  | [] => none
  | c :: r =>
    if c = '[' then
      match skipWs r with
      | [] => none
      | c2 :: r2 =>
        if c2 = ']' then (if (skipWs r2).isEmpty then some [] else none)
        else
          match parseItemsJ s.length r with
          | some (rs, rest) => if (skipWs rest).isEmpty then some rs else none
          | none => none
    else none

/-! ## Write effects (`write_json` lines 57–70, `write_yaml` lines 72–85)

Opening the output file for writing either succeeds or raises; the
environment `WEnv` gives the error message for paths on which it raises. -/

/-- What a run prints and which files it writes. -/
structure Effects where
  printed : List Str
  writes : List (Str × Str)
deriving DecidableEq

abbrev WEnv := Str → Option Str

def sWritten : Str := "Data written to ".data
def sErrJson : Str := "Error writing JSON: ".data
def sErrYaml : Str := "Error writing YAML: ".data

/-- `write_json(data, filename)`: writes the `indent=2` JSON dump and prints
a success message, or catches the failure and prints an error message. -/
def write_json (wenv : WEnv) (data : List Record) (filename : Str) : Effects :=
  match wenv filename with
  | some e => ⟨[sErrJson ++ e], []⟩
  | none => ⟨[sWritten ++ filename], [(filename, jsonEncode data)]⟩

/-! ## YAML export (`write_yaml`, lines 72–85)

`yaml.dump(data, file, default_flow_style=False)` with PyYAML defaults
(`allow_unicode=False`, `sort_keys=True`): a block sequence of block
mappings with keys sorted, scalars written plain when that is safe,
otherwise single-quoted when printable ASCII, otherwise double-quoted with
PyYAML's escape set (`\x..`/`\u....`/`\U........` uppercase hex).
Simplifications of the model, none of which changes the values a YAML
loader recovers: the emitter's line folding at width 80 is not modelled
(long scalars stay on one line), the explicit-key form for keys longer than
128 characters is not modelled, and plain style is chosen by a conservative
model of the emitter's scalar analysis and implicit-resolver check — every
string the model writes plain, PyYAML would also write plain and resolve
back to a string.  `yamlParse` reads this block shape back; on plain
scalars it resolves exactly the word the emitter uses for `None`. -/

/-- Python `<` on strings: lexicographic by code point. -/
def ltStr : Str → Str → Bool
  | [], [] => false
  | [], _ :: _ => true
  | _ :: _, [] => false
  | a :: s, b :: t => if a < b then true else if a = b then ltStr s t else false

/-- `sorted(mapping.items())` of the dict representer (`sort_keys=True`);
keys of a dict are distinct, so comparison never reaches the values. -/
def sortRec (r : Record) : Record :=
  List.insertionSort (fun p q : Str × Option Str => ltStr q.1 p.1 = false) r

/-- Characters the model allows in a plain scalar. -/
def plainChar (c : Char) : Bool :=
  c.isAlpha || c.isDigit || c = '-' || c = '_' || c = '.' || c = '/' || c = ' '

/-- Plain scalars the implicit resolver would resolve to a non-string tag
(`bool`/`null` words of the YAML 1.1 resolver that pass `plainChar`). -/
def yamlWords : List Str :=
  ["null", "Null", "NULL", "true", "True", "TRUE", "false", "False", "FALSE",
   "yes", "Yes", "YES", "no", "No", "NO", "on", "On", "ON", "off", "Off",
   "OFF", "y", "Y", "n", "N"].map String.data

/-- Conservative model of the emitter's plain-scalar check: nonempty, starts
with a letter, only safe characters, no trailing space, and not a word the
resolver would retag. -/
def plainOk (s : Str) : Bool :=
  match s with
  | [] => false
  | c :: _ =>
    c.isAlpha && s.all plainChar && (s.getLast? != some ' ')
      && !(yamlWords.contains s)

def printableAscii (c : Char) : Bool := 0x20 ≤ c.toNat && c.toNat ≤ 0x7E

/-- Uppercase hex digit, as the PyYAML emitter prints. -/
def hexDigU (d : Nat) : Char :=
  if d < 10 then Char.ofNat (48 + d) else Char.ofNat (55 + d)

def hex2U (n : Nat) : Str := [hexDigU (n / 16 % 16), hexDigU (n % 16)]

def hex4U (n : Nat) : Str :=
  [hexDigU (n / 4096 % 16), hexDigU (n / 256 % 16), hexDigU (n / 16 % 16),
   hexDigU (n % 16)]

def hex8U (n : Nat) : Str := hex4U (n / 65536) ++ hex4U (n % 65536)

/-- One character in a double-quoted YAML scalar
(PyYAML `ESCAPE_REPLACEMENTS` plus hex escapes, `allow_unicode=False`). -/
def yDChar (c : Char) : Str :=
  if c = '"' then ['\\', '"']
  else if c = '\\' then ['\\', '\\']
  else if 0x20 ≤ c.toNat ∧ c.toNat ≤ 0x7E then [c]
  else if c.toNat = 0 then ['\\', '0']
  else if c.toNat = 7 then ['\\', 'a']
  else if c.toNat = 8 then ['\\', 'b']
  else if c.toNat = 9 then ['\\', 't']
  else if c.toNat = 10 then ['\\', 'n']
  else if c.toNat = 11 then ['\\', 'v']
  else if c.toNat = 12 then ['\\', 'f']
  else if c.toNat = 13 then ['\\', 'r']
  else if c.toNat = 27 then ['\\', 'e']
  else if c.toNat = 0x85 then ['\\', 'N']
  else if c.toNat = 0xA0 then ['\\', '_']
  else if c.toNat = 0x2028 then ['\\', 'L']
  else if c.toNat = 0x2029 then ['\\', 'P']
  else if c.toNat < 0x100 then '\\' :: 'x' :: hex2U c.toNat
  else if c.toNat < 0x10000 then '\\' :: 'u' :: hex4U c.toNat
  else '\\' :: 'U' :: hex8U c.toNat

/-- Single-quoted escaping: a quote is doubled. -/
def sqEsc (s : Str) : Str :=
  (s.map (fun c => if c = '\'' then ['\'', '\''] else [c])).flatten

/-- A scalar in the style the emitter chooses: plain, else single-quoted,
else double-quoted. -/
def emitScalar (s : Str) : Str :=
  if plainOk s then s
  else if s.all printableAscii then '\'' :: (sqEsc s ++ ['\''])
  else '"' :: ((s.map yDChar).flatten ++ ['"'])

/-- A mapping value: the word for `None`, or a string scalar. -/
def yamlValStr : Option Str → Str
  | none => ['n', 'u', 'l', 'l']
  | some s => emitScalar s

/-- One `key: value` line, newline included. -/
def emitEntry (p : Str × Option Str) : Str :=
  emitScalar p.1 ++ ':' :: ' ' :: (yamlValStr p.2 ++ ['\n'])

/-- The entries after the first, each indented two spaces. -/
def emitEntriesCont : Record → Str
  | [] => []
  | p :: ps => ' ' :: ' ' :: (emitEntry p ++ emitEntriesCont ps)

/-- One sequence item: `- ` and the sorted entries, or `- {}` when the
record is empty. -/
def emitBlock (r : Record) : Str :=
  match sortRec r with
  | [] => ['-', ' ', '{', '}', '\n']
  | p :: ps => '-' :: ' ' :: (emitEntry p ++ emitEntriesCont ps)

/-- The exact text `yaml.dump(data, file, default_flow_style=False)` writes
under the modelled simplifications. -/
def yamlEncode (rs : List Record) : Str :=
  match rs with
  | [] => ['[', ']', '\n']
  | _ => (rs.map emitBlock).flatten

/-- `write_yaml(data, filename)`: writes the block-style YAML dump and
prints a success message, or catches the failure and prints an error
message. -/
def write_yaml (wenv : WEnv) (data : List Record) (filename : Str) : Effects :=
  match wenv filename with
  | some e => ⟨[sErrYaml ++ e], []⟩
  | none => ⟨[sWritten ++ filename], [(filename, yamlEncode data)]⟩

/-! ### A YAML reader for the emitted shape -/

/-- Escapes after a backslash in a double-quoted scalar. -/
def yUnesc (e : Char) : Option Char :=
  if e = '0' then some (Char.ofNat 0)
  else if e = 'a' then some (Char.ofNat 7)
  else if e = 'b' then some (Char.ofNat 8)
  else if e = 't' then some '\t'
  else if e = 'n' then some '\n'
  else if e = 'v' then some (Char.ofNat 11)
  else if e = 'f' then some (Char.ofNat 12)
  else if e = 'r' then some (Char.ofNat 13)
  else if e = 'e' then some (Char.ofNat 27)
  else if e = '"' then some '"'
  else if e = '\\' then some '\\'
  else if e = 'N' then some (Char.ofNat 0x85)
  else if e = '_' then some (Char.ofNat 0xA0)
  else if e = 'L' then some (Char.ofNat 0x2028)
  else if e = 'P' then some (Char.ofNat 0x2029)
  else none

def hex2Val (a b : Char) : Option Nat :=
  match hexVal a, hexVal b with
  | some x, some y => some (x * 16 + y)
  | _, _ => none

def hex8Val (a b c d e f g h : Char) : Option Nat :=
  match hex4Val a b c d, hex4Val e f g h with
  | some x, some y => some (x * 65536 + y)
  | _, _ => none

def parseYDx : Str → Option (Char × Str)
  | a :: b :: r =>
    match hex2Val a b with
    | some n => (mkChar n).map (fun ch => (ch, r))
    | none => none
  | _ => none

def parseYDu : Str → Option (Char × Str)
  | a :: b :: c :: d :: r =>
    match hex4Val a b c d with
    | some n => (mkChar n).map (fun ch => (ch, r))
    | none => none
  | _ => none

def parseYDU : Str → Option (Char × Str)
  | a :: b :: c :: d :: e :: f :: g :: h :: r =>
    match hex8Val a b c d e f g h with
    | some n => (mkChar n).map (fun ch => (ch, r))
    | none => none
  | _ => none

def parseYDEsc : Str → Option (Char × Str)
  | [] => none
  | e :: r =>
    if e = 'x' then parseYDx r
    else if e = 'u' then parseYDu r
    else if e = 'U' then parseYDU r
    else
      match yUnesc e with
      | some ch => some (ch, r)
      | none => none

/-- The body of a double-quoted scalar after the opening quote. -/
def parseYDBody : Nat → Str → Option (Str × Str)
  | 0, _ => none
  | _ + 1, [] => none
  | fuel + 1, c :: rest =>
    if c = '"' then some ([], rest)
    else if c = '\\' then
      match parseYDEsc rest with
      | none => none
      | some (ch, r) =>
        match parseYDBody fuel r with
        | some pr => some (ch :: pr.1, pr.2)
        | none => none
    else
      match parseYDBody fuel rest with
      | some pr => some (c :: pr.1, pr.2)
      | none => none

/-- After a quote inside a single-quoted scalar: a doubled quote is an
escape, anything else closes the scalar. -/
inductive SQStep
  | escaped (rest : Str)
  | closed (rest : Str)

def sqPeek : Str → SQStep
  | [] => .closed []
  | q :: r2 => if q = '\'' then .escaped r2 else .closed (q :: r2)

/-- The body of a single-quoted scalar after the opening quote. -/
def parseYSBody : Nat → Str → Option (Str × Str)
  | 0, _ => none
  | _ + 1, [] => none
  | fuel + 1, c :: rest =>
    if c = '\'' then
      match sqPeek rest with
      | .escaped r2 =>
        match parseYSBody fuel r2 with
        | some pr => some ('\'' :: pr.1, pr.2)
        | none => none
      | .closed r2 => some ([], r2)
    else
      match parseYSBody fuel rest with
      | some pr => some (c :: pr.1, pr.2)
      | none => none

/-- A plain scalar resolves to `None` exactly on the word the emitter uses
for it; the emitter quotes every other retagged word. -/
def resolvePlain (t : Str) : Option Str :=
  if t == ['n', 'u', 'l', 'l'] then none else some t

/-- `: ` after a key. -/
def expectColonSp (k : Str) (r : Str) : Option (Str × Str) :=
  match r with
  | [] => none
  | c :: r2 =>
    if c = ':' then
      match r2 with
      | [] => none
      | c2 :: r3 => if c2 = ' ' then some (k, r3) else none
    else none

/-- The newline ending a value. -/
def expectNl (v : Option Str) (r : Str) : Option (Option Str × Str) :=
  match r with
  | [] => none
  | c :: r2 => if c = '\n' then some (v, r2) else none

/-- A key scalar and its `: ` separator. -/
def parseYKey (s : Str) : Option (Str × Str) :=
  match s with
  | [] => none
  | c :: rest =>
    if c = '\'' then
      match parseYSBody rest.length rest with
      | none => none
      | some (k, r) => expectColonSp k r
    else if c = '"' then
      match parseYDBody rest.length rest with
      | none => none
      | some (k, r) => expectColonSp k r
    else
      let k := s.takeWhile (fun c2 => c2 != ':')
      if k.isEmpty then none
      else expectColonSp k (s.dropWhile (fun c2 => c2 != ':'))

/-- A value scalar and its terminating newline. -/
def parseYVal (s : Str) : Option (Option Str × Str) :=
  match s with
  | [] => none
  | c :: rest =>
    if c = '\'' then
      match parseYSBody rest.length rest with
      | none => none
      | some (v, r) => expectNl (some v) r
    else if c = '"' then
      match parseYDBody rest.length rest with
      | none => none
      | some (v, r) => expectNl (some v) r
    else
      expectNl (resolvePlain (s.takeWhile (fun c2 => c2 != '\n')))
        (s.dropWhile (fun c2 => c2 != '\n'))

/-- One `key: value` line. -/
def parseYEntry (s : Str) : Option ((Str × Option Str) × Str) :=
  match parseYKey s with
  | none => none
  | some (k, r) =>
    match parseYVal r with
    | none => none
    | some (v, r2) => some ((k, v), r2)

/-- A two-space continuation indent. -/
def yContStep (s : Str) : Option Str :=
  match s with
  | c1 :: c2 :: r => if c1 = ' ' ∧ c2 = ' ' then some r else none
  | _ => none

/-- The continuation lines of one block mapping. -/
def parseYCont : Nat → Str → Option (Record × Str)
  | 0, _ => none
  | fuel + 1, s =>
    match yContStep s with
    | none => some ([], s)
    | some r =>
      match parseYEntry r with
      | none => none
      | some (e, r2) =>
        match parseYCont fuel r2 with
        | some (es, r3) => some (e :: es, r3)
        | none => none

/-- A `- ` sequence-item marker. -/
def yBlockStep (s : Str) : Option Str :=
  match s with
  | c1 :: c2 :: r => if c1 = '-' ∧ c2 = ' ' then some r else none
  | _ => none

/-- A `{}` empty flow mapping and its newline. -/
def yEmptyMap (r : Str) : Option Str :=
  match r with
  | [] => none
  | c1 :: r1 =>
    if c1 = '{' then
      match r1 with
      | c2 :: c3 :: r2 => if c2 = '}' ∧ c3 = '\n' then some r2 else none
      | _ => none
    else none

/-- The block sequence of block mappings. -/
def parseYBlocks : Nat → Str → Option (List Record)
  | 0, _ => none
  | fuel + 1, s =>
    if s.isEmpty then some []
    else
      match yBlockStep s with
      | none => none
      | some r =>
        match yEmptyMap r with
        | some r2 =>
          match parseYBlocks fuel r2 with
          | some rs => some ([] :: rs)
          | none => none
        | none =>
          match parseYEntry r with
          | none => none
          | some (e, r2) =>
            match parseYCont fuel r2 with
            | some (es, r3) =>
              match parseYBlocks fuel r3 with
              | some rs => some ((e :: es) :: rs)
              | none => none
            | none => none

/-- Parsing a YAML document of the emitted shape. -/
def yamlParse (s : Str) : Option (List Record) :=
  if s == ['[', ']', '\n'] then some [] else parseYBlocks s.length s

/-! ## The CLI driver (`main`, lines 87–116)

`argparse` guarantees `action` is one of `list`, `add`, `export` and
`--format`, when given, is `json` or `yaml`; `--inventory` defaults to
`inventory.csv`.  A `KeyError` raised by `device[...]` in the `list` loop is
not caught anywhere and terminates the process: the model returns it as
`.error` (the lines printed before the crash are not tracked by the model;
no claim concerns them). -/

inductive CliAction
  | list
  | add
  | export
deriving DecidableEq

inductive ExportFormat
  | json
  | yaml
deriving DecidableEq

/-- The parsed argument namespace. -/
structure Args where
  action : CliAction
  name : Option Str
  ip : Option Str
  user : Option Str
  password : Option Str
  desc : Option Str
  format : Option ExportFormat
  output : Option Str
  inventory : Str

/-- Python `x or d` for an optional string `x`: `None` and `''` are falsy. -/
def pyOr : Option Str → Str → Str
  | none, d => d
  | some [], d => d
  | some s, _ => s

def sMgmtIP : Str := "Management IP".data
def sDescription : Str := "Description".data
def sFound1 : Str := "Found ".data
def sFound2 : Str := " devices:".data
def sKeyErr : Str := "KeyError: ".data
def sInventoryJson : Str := "inventory.json".data
def sInventoryYaml : Str := "inventory.yaml".data

/-- `device[k]`: the stored value on a hit, `KeyError` on a miss. -/
def pyIndex (d : Record) (k : Str) : Except Str (Option Str) :=
  match assocFind d k with
  | some v => .ok v
  | none => .error (sKeyErr ++ Char.ofNat 39 :: (k ++ [Char.ofNat 39]))

/-- `str(value)` inside the f-string: `None` renders as `None`. -/
def strOfVal : Option Str → Str
  | none => "None".data
  | some s => s

/-- The `list` line `  {d[Name]} ({d[Management IP]}) - {d[Description]}`,
or the first `KeyError` the three subscripts raise. -/
def deviceLine (d : Record) : Except Str Str :=
  match pyIndex d sName with
  | .error e => .error e
  | .ok n =>
    match pyIndex d sMgmtIP with
    | .error e => .error e
    | .ok i =>
      match pyIndex d sDescription with
      | .error e => .error e
      | .ok de =>
        .ok (' ' :: ' ' :: (strOfVal n ++
          ' ' :: '(' :: (strOfVal i ++
          ')' :: ' ' :: '-' :: ' ' :: strOfVal de)))

/-- The `for device in devices` print loop, stopped by the first `KeyError`. -/
def listLines : List Record → Except Str (List Str)
  | [] => .ok []
  | d :: ds =>
    match deviceLine d with
    | .error e => .error e
    | .ok line =>
      match listLines ds with
      | .error e => .error e
      | .ok lines => .ok (line :: lines)

/-- The default export filename of each format. -/
def defaultName : ExportFormat → Str
  | .json => sInventoryJson
  | .yaml => sInventoryYaml

/-- The writer each format selects. -/
def writeOf : ExportFormat → WEnv → List Record → Str → Effects
  | .json => write_json
  | .yaml => write_yaml

/-- `main()` (lines 87–116): `.ok` is a normal exit carrying the run\'s
printed lines and written files, `.error` an uncaught exception (only the
`KeyError` of the `list` branch).  Lean reserves the name `main` for an
executable entry point, hence the suffix. -/
def mainCli (args : Args) (fd : FileData) (wenv : WEnv) : Except Str Effects :=
  match args.action with
  | .list =>
    let ld := read_inventory fd args.inventory
    match listLines ld.2 with
    | .error e => .error e
    | .ok lines =>
      .ok ⟨ld.1 ++ (sFound1 ++ Nat.toDigits 10 ld.2.length ++ sFound2)
        :: lines, []⟩
  | .add => .ok ⟨[], []⟩
  | .export =>
    let ld := read_inventory fd args.inventory
    if ld.2.isEmpty then .ok ⟨ld.1, []⟩
    else
      match args.format with
      | some .json =>
        let eff := write_json wenv ld.2 (pyOr args.output sInventoryJson)
        .ok ⟨ld.1 ++ eff.printed, eff.writes⟩
      | some .yaml =>
        let eff := write_yaml wenv ld.2 (pyOr args.output sInventoryYaml)
        .ok ⟨ld.1 ++ eff.printed, eff.writes⟩
      | none => .ok ⟨ld.1, []⟩

/-! ### Lemmas: whitespace, hex digits and characters -/

theorem skipWs_cons_ws (c : Char) (t : Str) (h : isWsCh c = true) :
    skipWs (c :: t) = skipWs t := by
  simp [skipWs, List.dropWhile, h]

theorem skipWs_cons_not (c : Char) (t : Str) (h : isWsCh c = false) :
    skipWs (c :: t) = c :: t := by
  simp [skipWs, List.dropWhile, h]

theorem hexVal_hexDig : ∀ d < 16, hexVal (hexDig d) = some d := by decide

theorem hex4Val_hex4 (n : Nat) (h : n < 65536) :
    hex4Val (hexDig (n / 4096 % 16)) (hexDig (n / 256 % 16))
      (hexDig (n / 16 % 16)) (hexDig (n % 16)) = some n := by
  rw [hex4Val, hexVal_hexDig _ (Nat.mod_lt _ (by norm_num)),
    hexVal_hexDig _ (Nat.mod_lt _ (by norm_num)),
    hexVal_hexDig _ (Nat.mod_lt _ (by norm_num)),
    hexVal_hexDig _ (Nat.mod_lt _ (by norm_num))]
  have harith : n / 4096 % 16 * 4096 + n / 256 % 16 * 256 + n / 16 % 16 * 16 + n % 16
      = n := by omega
  show some (n / 4096 % 16 * 4096 + n / 256 % 16 * 256 + n / 16 % 16 * 16 + n % 16)
    = some n
  rw [harith]

theorem mkChar_toNat (c : Char) : mkChar c.toNat = some c := by
  have hv : Nat.isValidChar c.toNat := c.valid
  rw [mkChar, if_pos hv, Char.ofNat_toNat]

theorem char_not_surrogate (c : Char) :
    c.toNat < 0xD800 ∨ 0xDFFF < c.toNat := by
  have hv : Nat.isValidChar c.toNat := c.valid
  rcases hv with h | h
  · exact Or.inl h
  · exact Or.inr h.1

theorem char_lt_codespace (c : Char) : c.toNat < 0x110000 := by
  have hv : Nat.isValidChar c.toNat := c.valid
  rcases hv with h | h
  · omega
  · exact h.2

/-! ### Lemmas: valid CSV text parses back to its rows -/

theorem fieldsAux_simple_comma (f : Str) (rest : Str) (cur : Str) (acc : List Str)
    (h : ∀ c ∈ f, c ≠ ',' ∧ c ≠ '"') :
    fieldsAux (f ++ ',' :: rest) false cur acc
      = fieldsAux rest false [] ((cur.reverse ++ f) :: acc) := by
  induction f generalizing cur with
  | nil => simp [fieldsAux]
  | cons c f ih =>
    have hc := h c (by simp)
    have hf : ∀ c ∈ f, c ≠ ',' ∧ c ≠ '"' := fun c hc => h c (by simp [hc])
    simp only [List.cons_append]
    rw [fieldsAux, if_neg hc.1, if_neg (by simp [hc.2]), ih _ hf]
    simp

theorem fieldsAux_simple_nil (f : Str) (cur : Str) (acc : List Str)
    (h : ∀ c ∈ f, c ≠ ',' ∧ c ≠ '"') :
    fieldsAux f false cur acc = acc.reverse ++ [cur.reverse ++ f] := by
  induction f generalizing cur with
  | nil => simp [fieldsAux]
  | cons c f ih =>
    have hc := h c (by simp)
    have hf : ∀ c ∈ f, c ≠ ',' ∧ c ≠ '"' := fun c hc => h c (by simp [hc])
    rw [fieldsAux, if_neg hc.1, if_neg (by simp [hc.2]), ih _ hf]
    simp

theorem fieldsAux_joinFields (fs : List Str) (acc : List Str) (hne : fs ≠ [])
    (h : ∀ f ∈ fs, ∀ c ∈ f, c ≠ ',' ∧ c ≠ '"') :
    fieldsAux (joinFields fs) false [] acc = acc.reverse ++ fs := by
  induction fs generalizing acc with
  | nil => exact absurd rfl hne
  | cons f fs ih =>
    match fs with
    | [] =>
      rw [joinFields, fieldsAux_simple_nil f [] acc (h f (by simp))]
      simp
    | f2 :: fs' =>
      rw [show joinFields (f :: f2 :: fs') = f ++ ',' :: joinFields (f2 :: fs') from rfl,
        fieldsAux_simple_comma f _ [] acc (h f (by simp))]
      simp only [List.reverse_nil, List.nil_append]
      rw [ih (f :: acc) (by simp) (fun g hg => h g (by simp [hg]))]
      simp

theorem splitFields_joinFields (fs : List Str) (hne : fs ≠ [])
    (h : ∀ f ∈ fs, ∀ c ∈ f, c ≠ ',' ∧ c ≠ '"') (hj : joinFields fs ≠ []) :
    splitFields (joinFields fs) = fs := by
  rw [splitFields, if_neg (by simp [List.isEmpty_iff, hj]),
    fieldsAux_joinFields fs [] hne h]
  simp

theorem splitLinesCh_append_line (l : Str) (rest : Str) (h : '\n' ∉ l) :
    splitLinesCh (l ++ '\n' :: rest) = l :: splitLinesCh rest := by
  induction l with
  | nil => simp [splitLinesCh]
  | cons c l ih =>
    have hc : c ≠ '\n' := fun hc => h (by simp [hc])
    have hl : '\n' ∉ l := fun hl => h (by simp [hl])
    rw [List.cons_append, splitLinesCh, if_neg hc, ih hl]

theorem splitLinesCh_joinLines (ls : List Str) (h : ∀ l ∈ ls, '\n' ∉ l) :
    splitLinesCh (joinLines ls) = ls := by
  induction ls with
  | nil => simp [joinLines, splitLinesCh]
  | cons l ls ih =>
    rw [joinLines, List.map_cons, List.flatten_cons, List.append_assoc,
      List.singleton_append, splitLinesCh_append_line l _ (h l (by simp))]
    rw [joinLines] at ih
    rw [ih (fun g hg => h g (by simp [hg]))]

theorem mem_joinFields (fs : List Str) (c : Char) (h : c ∈ joinFields fs) :
    c = ',' ∨ ∃ f ∈ fs, c ∈ f := by
  induction fs with
  | nil => simp [joinFields] at h
  | cons f fs ih =>
    match fs with
    | [] =>
      rw [show joinFields [f] = f from rfl] at h
      exact Or.inr ⟨f, by simp, h⟩
    | f2 :: fs' =>
      rw [show joinFields (f :: f2 :: fs') = f ++ ',' :: joinFields (f2 :: fs') from rfl] at h
      rcases List.mem_append.mp h with h1 | h1
      · exact Or.inr ⟨f, by simp, h1⟩
      · rcases List.mem_cons.mp h1 with h2 | h2
        · exact Or.inl h2
        · rcases ih h2 with h3 | ⟨g, hg, hcg⟩
          · exact Or.inl h3
          · exact Or.inr ⟨g, by simp [hg], hcg⟩

theorem dictInsert_fresh (d : List (Str × α)) (k : Str) (v : α)
    (h : ∀ p ∈ d, p.1 ≠ k) : dictInsert d k v = d ++ [(k, v)] := by
  have hcond : ¬(d.any (fun p => p.1 == k) = true) := by
    simp only [List.any_eq_true, beq_iff_eq]
    rintro ⟨p, hp, hpk⟩
    exact h p hp hpk
  rw [dictInsert, if_neg hcond]

theorem foldl_dictInsert_fresh (ps : List (Str × α)) (acc : List (Str × α))
    (hnd : (ps.map Prod.fst).Nodup)
    (hfresh : ∀ p ∈ acc, ∀ q ∈ ps, p.1 ≠ q.1) :
    ps.foldl (fun a p => dictInsert a p.1 p.2) acc = acc ++ ps := by
  induction ps generalizing acc with
  | nil => simp
  | cons q ps ih =>
    obtain ⟨k, v⟩ := q
    rw [List.foldl_cons]
    rw [show dictInsert acc (k, v).1 (k, v).2 = dictInsert acc k v from rfl,
      dictInsert_fresh acc k v (fun p hp => hfresh p hp (k, v) (by simp))]
    rw [List.map_cons, List.nodup_cons] at hnd
    rw [ih (acc ++ [(k, v)]) hnd.2]
    · simp
    · intro p hp r hr
      rcases List.mem_append.mp hp with h1 | h1
      · exact hfresh p h1 r (by simp [hr])
      · have hpq : p = (k, v) := by simpa using h1
        subst hpq
        intro hq
        exact hnd.1 (hq ▸ List.mem_map_of_mem Prod.fst hr)

theorem dictOfZip_eq_zip (fns : List Str) (row : List Str)
    (hnd : fns.Nodup) (hlen : row.length = fns.length) :
    dictOfZip fns row = (fns.zip row).map (fun p => (p.1, some p.2)) := by
  rw [dictOfZip, hlen, List.drop_length, List.foldl_nil]
  have hzip : ((fns.zip row).map (fun p : Str × Str => (p.1, some p.2))).map Prod.fst
      = fns := by
    rw [List.map_map]
    have : (Prod.fst ∘ fun p : Str × Str => (p.1, some p.2)) = Prod.fst := rfl
    rw [this, List.map_fst_zip _ _ (le_of_eq hlen.symm)]
  have hfold := foldl_dictInsert_fresh
    ((fns.zip row).map (fun p : Str × Str => (p.1, some p.2))) []
    (by rw [hzip]; exact hnd) (by simp)
  rw [List.foldl_map] at hfold
  simpa using hfold

theorem readLoop_lines_then (rows : List Str) (fns : List Str) (acc : List Record)
    (rest : List LineEvent) (h : ∀ l ∈ rows, splitFields l ≠ []) :
    readLoop fns (rows.map .line ++ rest) acc
      = readLoop fns rest (acc ++ rows.map (fun l => dictOfZip fns (splitFields l))) := by
  induction rows generalizing acc with
  | nil => simp
  | cons l rows ih =>
    rw [List.map_cons, List.cons_append, readLoop,
      if_neg (by simp [List.isEmpty_iff, h l (by simp)]),
      ih _ (fun g hg => h g (by simp [hg]))]
    simp

theorem readLoop_lines (rows : List Str) (fns : List Str) (acc : List Record)
    (h : ∀ l ∈ rows, splitFields l ≠ []) :
    readLoop fns (rows.map .line) acc
      = ([], acc ++ rows.map (fun l => dictOfZip fns (splitFields l))) := by
  have := readLoop_lines_then rows fns acc [] h
  rw [List.append_nil] at this
  rw [this, readLoop]

theorem joinFields_no_newline (fs : List Str) (h : ∀ f ∈ fs, simpleField f) :
    '\n' ∉ joinFields fs := by
  intro hmem
  rcases mem_joinFields fs '\n' hmem with h1 | ⟨f, hf, hcf⟩
  · exact absurd h1 (by decide)
  · exact (h f hf '\n' hcf).2.1 rfl

theorem validCsv_lines (header : List Str) (rows : List (List Str))
    (h : validCsv header rows) :
    splitLinesCh (csvRender header rows)
      = joinFields header :: rows.map joinFields := by
  obtain ⟨_, hh, _, hr, _, _⟩ := h
  rw [csvRender, splitLinesCh_joinLines]
  intro l hl
  rcases List.mem_cons.mp hl with h1 | h1
  · exact h1 ▸ joinFields_no_newline header hh
  · obtain ⟨r, hrr, hrl⟩ := List.mem_map.mp h1
    exact hrl ▸ joinFields_no_newline r (hr r hrr)

theorem validCsv_header_ne_nil (header : List Str) (rows : List (List Str))
    (h : validCsv header rows) : header ≠ [] := by
  intro hnil
  exact h.2.2.1 (by rw [hnil]; rfl)

theorem validCsv_splitFields_header (header : List Str) (rows : List (List Str))
    (h : validCsv header rows) : splitFields (joinFields header) = header :=
  splitFields_joinFields header (validCsv_header_ne_nil header rows h)
    (fun f hf c hc => ⟨(h.2.1 f hf c hc).1, (h.2.1 f hf c hc).2.2.2⟩) h.2.2.1

theorem validCsv_splitFields_row (header : List Str) (rows : List (List Str))
    (h : validCsv header rows) (r : List Str) (hr : r ∈ rows) :
    splitFields (joinFields r) = r := by
  apply splitFields_joinFields
  · intro hnil
    have := h.2.2.2.2.1 r hr
    rw [hnil] at this
    exact validCsv_header_ne_nil header rows h (List.length_eq_zero.mp this.symm)
  · exact fun f hf c hc =>
      ⟨(h.2.2.2.1 r hr f hf c hc).1, (h.2.2.2.1 r hr f hf c hc).2.2.2⟩
  · exact h.2.2.2.2.2 r hr

theorem read_inventory_valid_events (header : List Str) (rows : List (List Str))
    (fname : Str) (tail : List LineEvent) (h : validCsv header rows) :
    read_inventory (.present (linesOf (csvRender header rows) ++ tail)) fname
      = readLoop header tail (csvRecords header rows) := by
  rw [linesOf, validCsv_lines header rows h, List.map_cons, List.cons_append,
    read_inventory]
  have hrowsne : ∀ l ∈ rows.map joinFields, splitFields l ≠ [] := by
    intro l hl
    obtain ⟨r, hrr, hrl⟩ := List.mem_map.mp hl
    rw [← hrl, validCsv_splitFields_row header rows h r hrr]
    intro hnil
    have := h.2.2.2.2.1 r hrr
    rw [hnil] at this
    exact validCsv_header_ne_nil header rows h (List.length_eq_zero.mp this.symm)
  rw [validCsv_splitFields_header header rows h,
    readLoop_lines_then (rows.map joinFields) header [] tail hrowsne]
  congr 1
  rw [csvRecords, List.map_map, List.nil_append]
  apply List.map_congr_left
  intro r hr
  simp only [Function.comp_apply]
  rw [validCsv_splitFields_row header rows h r hr,
    dictOfZip_eq_zip header r h.1 (h.2.2.2.2.1 r hr)]

/-! ### Lemmas: JSON round trip -/

theorem parseJEsc_named (e : Char) (r1 : Str) (ch : Char) (he : e ≠ 'u')
    (hu : unescJ e = some ch) : parseJEsc (e :: r1) = some (ch, r1) := by
  show (if e = 'u' then parseJEscU r1
    else match unescJ e with
      | some ch => some (ch, r1)
      | none => none) = some (ch, r1)
  rw [if_neg he, hu]

theorem parseJEsc_u (r : Str) : parseJEsc ('u' :: r) = parseJEscU r := rfl

theorem parseJEscU_val (p1 p2 p3 p4 : Char) (r2 : Str) (n : Nat)
    (hhex : hex4Val p1 p2 p3 p4 = some n) :
    parseJEscU (p1 :: p2 :: p3 :: p4 :: r2) = parseJEscU2 n r2 := by
  show (match hex4Val p1 p2 p3 p4 with
    | none => none
    | some n => parseJEscU2 n r2) = parseJEscU2 n r2
  rw [hhex]

theorem parseJEscU2_bmp (n : Nat) (r2 : Str) (ch : Char)
    (hns : ¬(0xD800 ≤ n ∧ n < 0xDC00)) (hmk : mkChar n = some ch) :
    parseJEscU2 n r2 = some (ch, r2) := by
  rw [parseJEscU2, if_neg hns, hmk]
  rfl

theorem parseJEscPair_val (n : Nat) (r3 : Str) :
    parseJEscPair n ('\\' :: 'u' :: r3) = parseJEscU3 n r3 := by
  show (if ('\\' : Char) = '\\' ∧ ('u' : Char) = 'u' then parseJEscU3 n r3 else none)
    = parseJEscU3 n r3
  rw [if_pos ⟨rfl, rfl⟩]

theorem parseJEscU2_pair (n : Nat) (r3 : Str) (hs : 0xD800 ≤ n ∧ n < 0xDC00) :
    parseJEscU2 n ('\\' :: 'u' :: r3) = parseJEscU3 n r3 := by
  rw [parseJEscU2, if_pos hs, parseJEscPair_val]

theorem parseJEscU3_val (n : Nat) (q1 q2 q3 q4 : Char) (r4 : Str) (m : Nat)
    (ch : Char) (hhex : hex4Val q1 q2 q3 q4 = some m)
    (hr : 0xDC00 ≤ m ∧ m < 0xE000)
    (hmk : mkChar (0x10000 + (n - 0xD800) * 0x400 + (m - 0xDC00)) = some ch) :
    parseJEscU3 n (q1 :: q2 :: q3 :: q4 :: r4) = some (ch, r4) := by
  show (match hex4Val q1 q2 q3 q4 with
    | none => none
    | some m => parseJEscFin n m r4) = some (ch, r4)
  rw [hhex]
  show parseJEscFin n m r4 = some (ch, r4)
  rw [parseJEscFin, if_pos hr, hmk]
  rfl

theorem parseJStrB_quote (fuel : Nat) (rest : Str) :
    parseJStrB (fuel + 1) ('"' :: rest) = some ([], rest) := by
  rw [parseJStrB, if_pos rfl]

theorem parseJStrB_esc (fuel : Nat) (rest : Str) (ch : Char) (r s2 r2 : Str)
    (hesc : parseJEsc rest = some (ch, r))
    (hcont : parseJStrB fuel r = some (s2, r2)) :
    parseJStrB (fuel + 1) ('\\' :: rest) = some (ch :: s2, r2) := by
  rw [parseJStrB, if_neg (by decide), if_pos rfl, hesc]
  show (match parseJStrB fuel r with
    | some pr => some (ch :: pr.1, pr.2)
    | none => none) = some (ch :: s2, r2)
  rw [hcont]

theorem parseJStrB_other (fuel : Nat) (c : Char) (rest s2 r2 : Str)
    (h1 : c ≠ '"') (h2 : c ≠ '\\')
    (hcont : parseJStrB fuel rest = some (s2, r2)) :
    parseJStrB (fuel + 1) (c :: rest) = some (c :: s2, r2) := by
  rw [parseJStrB, if_neg h1, if_neg h2, hcont]

theorem parseJStrB_encChar (c : Char) (fuel : Nat) (T s2 r2 : Str)
    (hcont : parseJStrB fuel T = some (s2, r2)) :
    parseJStrB (fuel + 1) (encodeJChar c ++ T) = some (c :: s2, r2) := by
  by_cases h1 : c = '"'
  · subst h1
    rw [show encodeJChar '"' = ['\\', '"'] from rfl]
    simp only [List.cons_append, List.nil_append]
    exact parseJStrB_esc fuel _ _ _ _ _
      (parseJEsc_named '"' T '"' (by decide) (by decide)) hcont
  by_cases h2 : c = '\\'
  · subst h2
    rw [show encodeJChar '\\' = ['\\', '\\'] from rfl]
    simp only [List.cons_append, List.nil_append]
    exact parseJStrB_esc fuel _ _ _ _ _
      (parseJEsc_named '\\' T '\\' (by decide) (by decide)) hcont
  by_cases h3 : 0x20 ≤ c.toNat ∧ c.toNat ≤ 0x7E
  · rw [encodeJChar, if_neg h1, if_neg h2, if_pos h3, List.singleton_append]
    exact parseJStrB_other fuel c T s2 r2 h1 h2 hcont
  by_cases h4 : c.toNat = 8
  · rw [encodeJChar, if_neg h1, if_neg h2, if_neg h3, if_pos h4]
    have hc : Char.ofNat 8 = c := by rw [← h4, Char.ofNat_toNat]
    have hres := parseJStrB_esc fuel ('b' :: T) (Char.ofNat 8) T s2 r2
      (parseJEsc_named 'b' T (Char.ofNat 8) (by decide) (by decide)) hcont
    rw [hc] at hres
    simpa using hres
  by_cases h5 : c.toNat = 9
  · rw [encodeJChar, if_neg h1, if_neg h2, if_neg h3, if_neg h4, if_pos h5]
    have hc : Char.ofNat 9 = c := by rw [← h5, Char.ofNat_toNat]
    have hres := parseJStrB_esc fuel ('t' :: T) (Char.ofNat 9) T s2 r2
      (parseJEsc_named 't' T (Char.ofNat 9) (by decide) (by decide)) hcont
    rw [hc] at hres
    simpa using hres
  by_cases h6 : c.toNat = 10
  · rw [encodeJChar, if_neg h1, if_neg h2, if_neg h3, if_neg h4, if_neg h5,
      if_pos h6]
    have hc : Char.ofNat 10 = c := by rw [← h6, Char.ofNat_toNat]
    have hres := parseJStrB_esc fuel ('n' :: T) (Char.ofNat 10) T s2 r2
      (parseJEsc_named 'n' T (Char.ofNat 10) (by decide) (by decide)) hcont
    rw [hc] at hres
    simpa using hres
  by_cases h7 : c.toNat = 12
  · rw [encodeJChar, if_neg h1, if_neg h2, if_neg h3, if_neg h4, if_neg h5,
      if_neg h6, if_pos h7]
    have hc : Char.ofNat 12 = c := by rw [← h7, Char.ofNat_toNat]
    have hres := parseJStrB_esc fuel ('f' :: T) (Char.ofNat 12) T s2 r2
      (parseJEsc_named 'f' T (Char.ofNat 12) (by decide) (by decide)) hcont
    rw [hc] at hres
    simpa using hres
  by_cases h8 : c.toNat = 13
  · rw [encodeJChar, if_neg h1, if_neg h2, if_neg h3, if_neg h4, if_neg h5,
      if_neg h6, if_neg h7, if_pos h8]
    have hc : Char.ofNat 13 = c := by rw [← h8, Char.ofNat_toNat]
    have hres := parseJStrB_esc fuel ('r' :: T) (Char.ofNat 13) T s2 r2
      (parseJEsc_named 'r' T (Char.ofNat 13) (by decide) (by decide)) hcont
    rw [hc] at hres
    simpa using hres
  by_cases h9 : c.toNat < 0x10000
  · rw [encodeJChar, if_neg h1, if_neg h2, if_neg h3, if_neg h4, if_neg h5,
      if_neg h6, if_neg h7, if_neg h8, if_pos h9, hex4]
    have hns : ¬(0xD800 ≤ c.toNat ∧ c.toNat < 0xDC00) := by
      rcases char_not_surrogate c with h | h <;> omega
    simp only [List.cons_append, List.nil_append]
    refine parseJStrB_esc fuel _ c T s2 r2 ?_ hcont
    rw [parseJEsc_u, parseJEscU_val _ _ _ _ _ c.toNat (hex4Val_hex4 c.toNat h9)]
    exact parseJEscU2_bmp c.toNat T c hns (mkChar_toNat c)
  · rw [encodeJChar, if_neg h1, if_neg h2, if_neg h3, if_neg h4, if_neg h5,
      if_neg h6, if_neg h7, if_neg h8, if_neg h9, hex4, hex4]
    have hcode := char_lt_codespace c
    have hhi : 0xD800 + (c.toNat - 0x10000) / 0x400 < 65536 := by omega
    have hlo : 0xDC00 + (c.toNat - 0x10000) % 0x400 < 65536 := by omega
    have hsur : 0xD800 ≤ 0xD800 + (c.toNat - 0x10000) / 0x400 ∧
        0xD800 + (c.toNat - 0x10000) / 0x400 < 0xDC00 := by omega
    have hsur2 : 0xDC00 ≤ 0xDC00 + (c.toNat - 0x10000) % 0x400 ∧
        0xDC00 + (c.toNat - 0x10000) % 0x400 < 0xE000 := by omega
    have hrecomb : 0x10000
        + (0xD800 + (c.toNat - 0x10000) / 0x400 - 0xD800) * 0x400
        + (0xDC00 + (c.toNat - 0x10000) % 0x400 - 0xDC00) = c.toNat := by omega
    have hmk : mkChar (0x10000
        + (0xD800 + (c.toNat - 0x10000) / 0x400 - 0xD800) * 0x400
        + (0xDC00 + (c.toNat - 0x10000) % 0x400 - 0xDC00)) = some c := by
      rw [hrecomb, mkChar_toNat]
    simp only [List.cons_append, List.nil_append, List.append_assoc]
    refine parseJStrB_esc fuel _ c T s2 r2 ?_ hcont
    rw [parseJEsc_u, parseJEscU_val _ _ _ _ _ _ (hex4Val_hex4 _ hhi),
      parseJEscU2_pair _ _ hsur]
    exact parseJEscU3_val _ _ _ _ _ _ _ c (hex4Val_hex4 _ hlo) hsur2 hmk

/-! ### Lemmas: JSON document round trip -/

theorem encodeJChar_length_pos (c : Char) : 1 ≤ (encodeJChar c).length := by
  rw [encodeJChar]
  split_ifs <;> simp [hex4]

theorem encLen (s : Str) : s.length ≤ ((s.map encodeJChar).flatten).length := by
  induction s with
  | nil => simp
  | cons c s ih =>
    simp only [List.map_cons, List.flatten_cons, List.length_append,
      List.length_cons]
    have := encodeJChar_length_pos c
    omega

theorem parseJStrB_enc (s : Str) : ∀ (fuel : Nat), s.length + 1 ≤ fuel →
    ∀ (tail : Str),
    parseJStrB fuel ((s.map encodeJChar).flatten ++ '"' :: tail)
      = some (s, tail) := by
  induction s with
  | nil =>
    intro fuel hf tail
    obtain ⟨f, rfl⟩ : ∃ f, fuel = f + 1 := ⟨fuel - 1, by omega⟩
    simp only [List.map_nil, List.flatten_nil, List.nil_append]
    exact parseJStrB_quote f tail
  | cons c s ih =>
    intro fuel hf tail
    obtain ⟨f, rfl⟩ : ∃ f, fuel = f + 1 := ⟨fuel - 1, by omega⟩
    simp only [List.map_cons, List.flatten_cons, List.append_assoc]
    refine parseJStrB_encChar c f _ s tail (ih f ?_ tail)
    simp only [List.length_cons] at hf
    omega

theorem parseJString_enc (k : Str) (tail : Str) :
    parseJString (encodeJString k ++ tail) = some (k, tail) := by
  rw [encodeJString]
  simp only [List.cons_append, List.append_assoc, List.singleton_append]
  rw [parseJString, if_pos rfl]
  apply parseJStrB_enc
  simp only [List.length_append, List.length_cons, List.nil_append]
  have := encLen k
  omega

theorem parseJValue_emit (v : Option Str) (tail : Str) :
    parseJValue (jsonVal v ++ tail) = some (v, tail) := by
  cases v with
  | none =>
    rw [jsonVal]
    simp only [List.cons_append, List.nil_append]
    rw [parseJValue, if_neg (by decide), if_pos rfl]
    rfl
  | some s =>
    rw [jsonVal, encodeJString]
    simp only [List.cons_append, List.append_assoc, List.singleton_append,
      List.nil_append]
    rw [parseJValue, if_pos rfl, parseJStrB_enc s]
    simp only [List.length_append, List.length_cons, List.nil_append]
    have := encLen s
    omega

theorem skipWs_ws_prefix (ws t : Str) (h : ∀ c ∈ ws, isWsCh c = true) :
    skipWs (ws ++ t) = skipWs t := by
  induction ws with
  | nil => rfl
  | cons c ws ih =>
    rw [List.cons_append, skipWs_cons_ws c _ (h c (by simp)),
      ih (fun c hc => h c (by simp [hc]))]

theorem skipWs_jsonVal (v : Option Str) (t : Str) :
    skipWs (jsonVal v ++ t) = jsonVal v ++ t := by
  cases v with
  | none => rw [jsonVal]; exact skipWs_cons_not _ _ (by decide)
  | some s =>
    rw [jsonVal, encodeJString]
    simp only [List.cons_append]
    exact skipWs_cons_not _ _ (by decide)

theorem skipWs_sp (t : Str) : skipWs (' ' :: t) = skipWs t :=
  skipWs_cons_ws _ _ (by decide)

theorem skipWs_nl (t : Str) : skipWs ('\n' :: t) = skipWs t :=
  skipWs_cons_ws _ _ (by decide)

theorem skipWs_colon (t : Str) : skipWs (':' :: t) = ':' :: t :=
  skipWs_cons_not _ _ (by decide)

theorem skipWs_comma (t : Str) : skipWs (',' :: t) = ',' :: t :=
  skipWs_cons_not _ _ (by decide)

theorem skipWs_rbrace (t : Str) : skipWs ('}' :: t) = '}' :: t :=
  skipWs_cons_not _ _ (by decide)

theorem skipWs_rbrack (t : Str) : skipWs (']' :: t) = ']' :: t :=
  skipWs_cons_not _ _ (by decide)

theorem skipWs_lbrace (t : Str) : skipWs ('{' :: t) = '{' :: t :=
  skipWs_cons_not _ _ (by decide)

theorem emitMembers_cons_eq (p : Str × Option Str) (ms : Record) :
    ∃ T, emitMembers (p :: ms) = '"' :: T := by
  obtain ⟨k, v⟩ := p
  cases ms with
  | nil =>
    refine ⟨(k.map encodeJChar).flatten ++ '"' :: ':' :: ' ' :: jsonVal v, ?_⟩
    rw [show emitMembers [(k, v)] = memberStr (k, v) from rfl, memberStr,
      encodeJString]
    simp
  | cons q ms' =>
    refine ⟨(k.map encodeJChar).flatten ++ '"' :: ':' :: ' ' :: (jsonVal v ++
      ',' :: '\n' :: ' ' :: ' ' :: ' ' :: ' ' :: emitMembers (q :: ms')), ?_⟩
    rw [show emitMembers ((k, v) :: q :: ms')
        = memberStr (k, v) ++ ',' :: '\n' :: ' ' :: ' ' :: ' ' :: ' ' ::
          emitMembers (q :: ms') from rfl, memberStr, encodeJString]
    simp

theorem skipWs_emitMembers (p : Str × Option Str) (ms : Record) (Z : Str) :
    skipWs (emitMembers (p :: ms) ++ Z) = emitMembers (p :: ms) ++ Z := by
  obtain ⟨T, hT⟩ := emitMembers_cons_eq p ms
  rw [hT, List.cons_append]
  exact skipWs_cons_not _ _ (by decide)

theorem parseMembersJ_emit (ms : Record) : ∀ (fuel : Nat), ms.length ≤ fuel →
    ms ≠ [] → ∀ (X : Str),
    parseMembersJ fuel (emitMembers ms ++ '\n' :: ' ' :: ' ' :: '}' :: X)
      = some (ms, X) := by
  induction ms with
  | nil => intro _ _ hne _; exact absurd rfl hne
  | cons p ms ih =>
    intro fuel hf _ X
    obtain ⟨f, rfl⟩ : ∃ f, fuel = f + 1 :=
      ⟨fuel - 1, by simp only [List.length_cons] at hf; omega⟩
    obtain ⟨k, v⟩ := p
    cases ms with
    | nil =>
      rw [show emitMembers [(k, v)] = memberStr (k, v) from rfl, memberStr]
      simp only [List.cons_append, List.append_assoc]
      rw [parseMembersJ, parseJString_enc k]
      simp only [skipWs_sp, skipWs_nl, skipWs_colon, skipWs_rbrace,
        skipWs_jsonVal, parseJValue_emit, Char.reduceEq, reduceIte]
    | cons q ms' =>
      rw [show emitMembers ((k, v) :: q :: ms')
          = memberStr (k, v) ++ ',' :: '\n' :: ' ' :: ' ' :: ' ' :: ' ' ::
            emitMembers (q :: ms') from rfl, memberStr]
      simp only [List.cons_append, List.append_assoc]
      rw [parseMembersJ, parseJString_enc k]
      simp only [skipWs_sp, skipWs_nl, skipWs_colon, skipWs_comma,
        skipWs_jsonVal, parseJValue_emit, skipWs_emitMembers, Char.reduceEq,
        reduceIte]
      rw [ih f (by simp only [List.length_cons] at hf ⊢; omega) (by simp) X]

theorem parseObject_emit (r : Record) (fuel : Nat) (hf : r.length ≤ fuel)
    (X : Str) : parseObject fuel (encodeObj r ++ X) = some (r, X) := by
  cases r with
  | nil =>
    rw [show encodeObj [] = [' ', ' ', '{', '}'] from rfl]
    simp only [List.cons_append, List.nil_append]
    rw [parseObject]
    simp only [skipWs_sp, skipWs_lbrace, skipWs_rbrace, Char.reduceEq,
      reduceIte]
  | cons p ms =>
    rw [show encodeObj (p :: ms)
        = ' ' :: ' ' :: '{' :: '\n' :: ' ' :: ' ' :: ' ' :: ' ' ::
          (emitMembers (p :: ms) ++ '\n' :: ' ' :: ' ' :: ['}']) from rfl]
    simp only [List.cons_append, List.append_assoc, List.singleton_append]
    rw [parseObject]
    obtain ⟨T, hT⟩ := emitMembers_cons_eq p ms
    simp only [skipWs_sp, skipWs_nl, skipWs_lbrace, skipWs_emitMembers, hT,
      List.cons_append, List.nil_append, skipWs_cons_not '"' _ (by decide),
      Char.reduceEq, reduceIte]
    rw [← List.cons_append, ← hT,
      parseMembersJ_emit (p :: ms) fuel hf (by simp) X]

/-- The fuel needed by the array item loop: one unit per object plus its
member count. -/
def jweight : List Record → Nat
  | [] => 0
  | r :: rs => 1 + r.length + jweight rs

theorem parseObject_congr (fuel : Nat) (s s' : Str)
    (h : skipWs s = skipWs s') : parseObject fuel s = parseObject fuel s' := by
  rw [parseObject, parseObject, h]

theorem parseItemsJ_nl (fuel : Nat) (t : Str) :
    parseItemsJ fuel ('\n' :: t) = parseItemsJ fuel t := by
  cases fuel with
  | zero => rfl
  | succ f =>
    rw [parseItemsJ, parseItemsJ,
      parseObject_congr (f + 1) ('\n' :: t) t (skipWs_cons_ws _ _ (by decide))]

theorem parseItemsJ_emit (rs : List Record) : ∀ (fuel : Nat),
    jweight rs ≤ fuel → rs ≠ [] → ∀ (X : Str),
    parseItemsJ fuel (emitItems rs ++ '\n' :: ']' :: X) = some (rs, X) := by
  induction rs with
  | nil => intro _ _ hne _; exact absurd rfl hne
  | cons r rs ih =>
    intro fuel hf _ X
    obtain ⟨f, rfl⟩ : ∃ f, fuel = f + 1 :=
      ⟨fuel - 1, by rw [jweight] at hf; omega⟩
    cases rs with
    | nil =>
      rw [show emitItems [r] = encodeObj r from rfl, parseItemsJ,
        parseObject_emit r (f + 1) (by rw [jweight, jweight] at hf; omega) _]
      simp only [skipWs_nl, skipWs_rbrack, Char.reduceEq, reduceIte]
    | cons r2 rs' =>
      rw [show emitItems (r :: r2 :: rs')
          = encodeObj r ++ ',' :: '\n' :: emitItems (r2 :: rs') from rfl]
      simp only [List.cons_append, List.append_assoc]
      rw [parseItemsJ,
        parseObject_emit r (f + 1) (by rw [jweight] at hf; omega) _]
      simp only [skipWs_comma, Char.reduceEq, reduceIte]
      rw [parseItemsJ_nl, ih f (by rw [jweight] at hf; omega) (by simp) X]

theorem memberStr_length_pos (p : Str × Option Str) :
    1 ≤ (memberStr p).length := by
  rw [memberStr, encodeJString]
  simp

theorem emitMembers_length (ms : Record) :
    ms.length ≤ (emitMembers ms).length := by
  induction ms with
  | nil => simp [emitMembers]
  | cons p ms ih =>
    cases ms with
    | nil =>
      rw [show emitMembers [p] = memberStr p from rfl]
      have := memberStr_length_pos p
      simp only [List.length_cons, List.length_nil]
      omega
    | cons q ms' =>
      rw [show emitMembers (p :: q :: ms')
          = memberStr p ++ ',' :: '\n' :: ' ' :: ' ' :: ' ' :: ' ' ::
            emitMembers (q :: ms') from rfl]
      have := memberStr_length_pos p
      simp only [List.length_append, List.length_cons] at ih ⊢
      omega

theorem encodeObj_length (r : Record) :
    1 + r.length ≤ (encodeObj r).length := by
  cases r with
  | nil => rw [show encodeObj [] = [' ', ' ', '{', '}'] from rfl]; simp
  | cons p ms =>
    rw [show encodeObj (p :: ms)
        = ' ' :: ' ' :: '{' :: '\n' :: ' ' :: ' ' :: ' ' :: ' ' ::
          (emitMembers (p :: ms) ++ '\n' :: ' ' :: ' ' :: ['}']) from rfl]
    have := emitMembers_length (p :: ms)
    simp only [List.length_cons, List.length_append, List.length_nil] at this ⊢
    omega

theorem jweight_le_emitItems (rs : List Record) :
    jweight rs ≤ (emitItems rs).length := by
  induction rs with
  | nil => simp [jweight]
  | cons r rs ih =>
    cases rs with
    | nil =>
      rw [show emitItems [r] = encodeObj r from rfl, jweight, jweight]
      have := encodeObj_length r
      omega
    | cons r2 rs' =>
      rw [show emitItems (r :: r2 :: rs')
          = encodeObj r ++ ',' :: '\n' :: emitItems (r2 :: rs') from rfl,
        jweight]
      have := encodeObj_length r
      simp only [List.length_append, List.length_cons] at ih ⊢
      omega

theorem skipWs_emitItems_shape (r : Record) (rs : List Record) (Z : Str) :
    ∃ T, skipWs (emitItems (r :: rs) ++ Z) = '{' :: T := by
  have hobj : ∃ U, emitItems (r :: rs) ++ Z = ' ' :: ' ' :: '{' :: U := by
    cases rs with
    | nil =>
      cases r with
      | nil => exact ⟨'}' :: Z, by rw [show emitItems [([] : Record)] = [' ', ' ', '{', '}'] from rfl]; simp⟩
      | cons p ms =>
        refine ⟨'\n' :: ' ' :: ' ' :: ' ' :: ' ' ::
          (emitMembers (p :: ms) ++ '\n' :: ' ' :: ' ' :: ['}']) ++ Z, ?_⟩
        rw [show emitItems [p :: ms] = encodeObj (p :: ms) from rfl,
          show encodeObj (p :: ms)
            = ' ' :: ' ' :: '{' :: '\n' :: ' ' :: ' ' :: ' ' :: ' ' ::
              (emitMembers (p :: ms) ++ '\n' :: ' ' :: ' ' :: ['}']) from rfl]
        simp
    | cons r2 rs' =>
      cases r with
      | nil =>
        exact ⟨'}' :: (',' :: '\n' :: emitItems (r2 :: rs') ++ Z), by
          rw [show emitItems ([] :: r2 :: rs')
            = encodeObj [] ++ ',' :: '\n' :: emitItems (r2 :: rs') from rfl,
            show encodeObj ([] : Record) = [' ', ' ', '{', '}'] from rfl]
          simp⟩
      | cons p ms =>
        refine ⟨'\n' :: ' ' :: ' ' :: ' ' :: ' ' ::
          ((emitMembers (p :: ms) ++ '\n' :: ' ' :: ' ' :: ['}'])
            ++ ',' :: '\n' :: emitItems (r2 :: rs') ++ Z), ?_⟩
        rw [show emitItems ((p :: ms) :: r2 :: rs')
            = encodeObj (p :: ms) ++ ',' :: '\n' :: emitItems (r2 :: rs') from rfl,
          show encodeObj (p :: ms)
            = ' ' :: ' ' :: '{' :: '\n' :: ' ' :: ' ' :: ' ' :: ' ' ::
              (emitMembers (p :: ms) ++ '\n' :: ' ' :: ' ' :: ['}']) from rfl]
        simp
  obtain ⟨U, hU⟩ := hobj
  refine ⟨U, ?_⟩
  rw [hU, skipWs_cons_ws ' ' _ (by decide), skipWs_cons_ws ' ' _ (by decide),
    skipWs_cons_not '{' _ (by decide)]

theorem jsonParse_encode (rs : List Record) :
    jsonParse (jsonEncode rs) = some rs := by
  cases rs with
  | nil => rfl
  | cons r rs' =>
    obtain ⟨T, hShape⟩ := skipWs_emitItems_shape r rs' ('\n' :: [']'])
    have hfuel : jweight (r :: rs')
        ≤ ('[' :: '\n' :: (emitItems (r :: rs') ++ '\n' :: [']'])).length := by
      have := jweight_le_emitItems (r :: rs')
      simp only [List.length_cons, List.length_append]
      omega
    rw [show jsonEncode (r :: rs')
        = '[' :: '\n' :: (emitItems (r :: rs') ++ '\n' :: [']']) from rfl]
    rw [jsonParse]
    simp only [skipWs_cons_not '[' _ (by decide), Char.reduceEq, reduceIte,
      skipWs_nl, hShape]
    rw [parseItemsJ_nl, parseItemsJ_emit (r :: rs') _ hfuel (by simp) []]
    rfl

/-! ### Lemmas: YAML scalars round trip -/

theorem hexVal_hexDigU : ∀ d < 16, hexVal (hexDigU d) = some d := by decide

theorem hex2Val_hex2U (n : Nat) (h : n < 256) :
    hex2Val (hexDigU (n / 16 % 16)) (hexDigU (n % 16)) = some n := by
  rw [hex2Val, hexVal_hexDigU _ (Nat.mod_lt _ (by norm_num)),
    hexVal_hexDigU _ (Nat.mod_lt _ (by norm_num))]
  have harith : n / 16 % 16 * 16 + n % 16 = n := by omega
  show some (n / 16 % 16 * 16 + n % 16) = some n
  rw [harith]

theorem hex4Val_hex4U (n : Nat) (h : n < 65536) :
    hex4Val (hexDigU (n / 4096 % 16)) (hexDigU (n / 256 % 16))
      (hexDigU (n / 16 % 16)) (hexDigU (n % 16)) = some n := by
  rw [hex4Val, hexVal_hexDigU _ (Nat.mod_lt _ (by norm_num)),
    hexVal_hexDigU _ (Nat.mod_lt _ (by norm_num)),
    hexVal_hexDigU _ (Nat.mod_lt _ (by norm_num)),
    hexVal_hexDigU _ (Nat.mod_lt _ (by norm_num))]
  have harith : n / 4096 % 16 * 4096 + n / 256 % 16 * 256 + n / 16 % 16 * 16
      + n % 16 = n := by omega
  show some (n / 4096 % 16 * 4096 + n / 256 % 16 * 256 + n / 16 % 16 * 16
    + n % 16) = some n
  rw [harith]

theorem hex8Val_hex8U (n : Nat) (h : n < 4294967296) :
    hex8Val (hexDigU (n / 65536 / 4096 % 16)) (hexDigU (n / 65536 / 256 % 16))
      (hexDigU (n / 65536 / 16 % 16)) (hexDigU (n / 65536 % 16))
      (hexDigU (n % 65536 / 4096 % 16)) (hexDigU (n % 65536 / 256 % 16))
      (hexDigU (n % 65536 / 16 % 16)) (hexDigU (n % 65536 % 16)) = some n := by
  rw [hex8Val, hex4Val_hex4U (n / 65536) (by omega),
    hex4Val_hex4U (n % 65536) (by omega)]
  have harith : n / 65536 * 65536 + n % 65536 = n := by omega
  show some (n / 65536 * 65536 + n % 65536) = some n
  rw [harith]

theorem parseYDx_hex (c : Char) (r : Str) (h : c.toNat < 256) :
    parseYDx (hex2U c.toNat ++ r) = some (c, r) := by
  rw [hex2U]
  show (match hex2Val (hexDigU (c.toNat / 16 % 16)) (hexDigU (c.toNat % 16)) with
    | some n => (mkChar n).map (fun ch => (ch, r))
    | none => none) = some (c, r)
  rw [hex2Val_hex2U c.toNat h]
  show (mkChar c.toNat).map (fun ch => (ch, r)) = some (c, r)
  rw [mkChar_toNat]
  rfl

theorem parseYDu_hex (c : Char) (r : Str) (h : c.toNat < 65536) :
    parseYDu (hex4U c.toNat ++ r) = some (c, r) := by
  rw [hex4U]
  show (match hex4Val (hexDigU (c.toNat / 4096 % 16))
      (hexDigU (c.toNat / 256 % 16)) (hexDigU (c.toNat / 16 % 16))
      (hexDigU (c.toNat % 16)) with
    | some n => (mkChar n).map (fun ch => (ch, r))
    | none => none) = some (c, r)
  rw [hex4Val_hex4U c.toNat h]
  show (mkChar c.toNat).map (fun ch => (ch, r)) = some (c, r)
  rw [mkChar_toNat]
  rfl

theorem parseYDU_hex (c : Char) (r : Str) :
    parseYDU (hex8U c.toNat ++ r) = some (c, r) := by
  rw [hex8U, hex4U, hex4U]
  simp only [List.cons_append, List.nil_append]
  show (match hex8Val (hexDigU (c.toNat / 65536 / 4096 % 16))
      (hexDigU (c.toNat / 65536 / 256 % 16)) (hexDigU (c.toNat / 65536 / 16 % 16))
      (hexDigU (c.toNat / 65536 % 16)) (hexDigU (c.toNat % 65536 / 4096 % 16))
      (hexDigU (c.toNat % 65536 / 256 % 16)) (hexDigU (c.toNat % 65536 / 16 % 16))
      (hexDigU (c.toNat % 65536 % 16)) with
    | some n => (mkChar n).map (fun ch => (ch, r))
    | none => none) = some (c, r)
  rw [hex8Val_hex8U c.toNat (by have := char_lt_codespace c; omega)]
  show (mkChar c.toNat).map (fun ch => (ch, r)) = some (c, r)
  rw [mkChar_toNat]
  rfl

theorem parseYDEsc_named (e : Char) (r : Str) (ch : Char)
    (hx : e ≠ 'x') (hu : e ≠ 'u') (hU : e ≠ 'U') (h : yUnesc e = some ch) :
    parseYDEsc (e :: r) = some (ch, r) := by
  show (if e = 'x' then parseYDx r
    else if e = 'u' then parseYDu r
    else if e = 'U' then parseYDU r
    else match yUnesc e with
      | some ch => some (ch, r)
      | none => none) = some (ch, r)
  rw [if_neg hx, if_neg hu, if_neg hU, h]

theorem parseYDEsc_x (r : Str) : parseYDEsc ('x' :: r) = parseYDx r := rfl

theorem parseYDEsc_u (r : Str) : parseYDEsc ('u' :: r) = parseYDu r := by
  show (if ('u' : Char) = 'x' then parseYDx r
    else if ('u' : Char) = 'u' then parseYDu r
    else if ('u' : Char) = 'U' then parseYDU r
    else match yUnesc 'u' with
      | some ch => some (ch, r)
      | none => none) = parseYDu r
  rw [if_neg (by decide), if_pos rfl]

theorem parseYDEsc_U (r : Str) : parseYDEsc ('U' :: r) = parseYDU r := by
  show (if ('U' : Char) = 'x' then parseYDx r
    else if ('U' : Char) = 'u' then parseYDu r
    else if ('U' : Char) = 'U' then parseYDU r
    else match yUnesc 'U' with
      | some ch => some (ch, r)
      | none => none) = parseYDU r
  rw [if_neg (by decide), if_neg (by decide), if_pos rfl]

theorem parseYDBody_quote (fuel : Nat) (rest : Str) :
    parseYDBody (fuel + 1) ('"' :: rest) = some ([], rest) := by
  rw [parseYDBody, if_pos rfl]

theorem parseYDBody_esc (fuel : Nat) (rest : Str) (ch : Char) (r s2 r2 : Str)
    (hesc : parseYDEsc rest = some (ch, r))
    (hcont : parseYDBody fuel r = some (s2, r2)) :
    parseYDBody (fuel + 1) ('\\' :: rest) = some (ch :: s2, r2) := by
  rw [parseYDBody, if_neg (by decide), if_pos rfl, hesc]
  show (match parseYDBody fuel r with
    | some pr => some (ch :: pr.1, pr.2)
    | none => none) = some (ch :: s2, r2)
  rw [hcont]

theorem parseYDBody_other (fuel : Nat) (c : Char) (rest s2 r2 : Str)
    (h1 : c ≠ '"') (h2 : c ≠ '\\')
    (hcont : parseYDBody fuel rest = some (s2, r2)) :
    parseYDBody (fuel + 1) (c :: rest) = some (c :: s2, r2) := by
  rw [parseYDBody, if_neg h1, if_neg h2]
  show (match parseYDBody fuel rest with
    | some pr => some (c :: pr.1, pr.2)
    | none => none) = some (c :: s2, r2)
  rw [hcont]

theorem parseYDBody_encChar (c : Char) (fuel : Nat) (T s2 r2 : Str)
    (hcont : parseYDBody fuel T = some (s2, r2)) :
    parseYDBody (fuel + 1) (yDChar c ++ T) = some (c :: s2, r2) := by
  by_cases g1 : c = '"'
  · subst g1
    rw [show yDChar '"' = ['\\', '"'] from rfl]
    simp only [List.cons_append, List.nil_append]
    exact parseYDBody_esc fuel _ _ _ _ _
      (parseYDEsc_named '"' T '"' (by decide) (by decide) (by decide)
        (by decide)) hcont
  by_cases g2 : c = '\\'
  · subst g2
    rw [show yDChar '\\' = ['\\', '\\'] from rfl]
    simp only [List.cons_append, List.nil_append]
    exact parseYDBody_esc fuel _ _ _ _ _
      (parseYDEsc_named '\\' T '\\' (by decide) (by decide) (by decide)
        (by decide)) hcont
  by_cases g3 : 0x20 ≤ c.toNat ∧ c.toNat ≤ 0x7E
  · rw [yDChar, if_neg g1, if_neg g2, if_pos g3, List.singleton_append]
    exact parseYDBody_other fuel c T s2 r2 g1 g2 hcont
  by_cases g4 : c.toNat = 0
  · rw [yDChar, if_neg g1, if_neg g2, if_neg g3, if_pos g4]
    have hcv : Char.ofNat 0 = c := by rw [← g4, Char.ofNat_toNat]
    have hres := parseYDBody_esc fuel ('0' :: T) (Char.ofNat 0) T s2 r2
      (parseYDEsc_named '0' T (Char.ofNat 0) (by decide) (by decide)
        (by decide) (by decide)) hcont
    rw [hcv] at hres
    simpa using hres
  by_cases g5 : c.toNat = 7
  · rw [yDChar, if_neg g1, if_neg g2, if_neg g3, if_neg g4, if_pos g5]
    have hcv : Char.ofNat 7 = c := by rw [← g5, Char.ofNat_toNat]
    have hres := parseYDBody_esc fuel ('a' :: T) (Char.ofNat 7) T s2 r2
      (parseYDEsc_named 'a' T (Char.ofNat 7) (by decide) (by decide)
        (by decide) (by decide)) hcont
    rw [hcv] at hres
    simpa using hres
  by_cases g6 : c.toNat = 8
  · rw [yDChar, if_neg g1, if_neg g2, if_neg g3, if_neg g4, if_neg g5, if_pos g6]
    have hcv : Char.ofNat 8 = c := by rw [← g6, Char.ofNat_toNat]
    have hres := parseYDBody_esc fuel ('b' :: T) (Char.ofNat 8) T s2 r2
      (parseYDEsc_named 'b' T (Char.ofNat 8) (by decide) (by decide)
        (by decide) (by decide)) hcont
    rw [hcv] at hres
    simpa using hres
  by_cases g7 : c.toNat = 9
  · rw [yDChar, if_neg g1, if_neg g2, if_neg g3, if_neg g4, if_neg g5, if_neg g6, if_pos g7]
    have hcv : Char.ofNat 9 = c := by rw [← g7, Char.ofNat_toNat]
    have hres := parseYDBody_esc fuel ('t' :: T) (Char.ofNat 9) T s2 r2
      (parseYDEsc_named 't' T (Char.ofNat 9) (by decide) (by decide)
        (by decide) (by decide)) hcont
    rw [hcv] at hres
    simpa using hres
  by_cases g8 : c.toNat = 10
  · rw [yDChar, if_neg g1, if_neg g2, if_neg g3, if_neg g4, if_neg g5, if_neg g6, if_neg g7, if_pos g8]
    have hcv : Char.ofNat 10 = c := by rw [← g8, Char.ofNat_toNat]
    have hres := parseYDBody_esc fuel ('n' :: T) (Char.ofNat 10) T s2 r2
      (parseYDEsc_named 'n' T (Char.ofNat 10) (by decide) (by decide)
        (by decide) (by decide)) hcont
    rw [hcv] at hres
    simpa using hres
  by_cases g9 : c.toNat = 11
  · rw [yDChar, if_neg g1, if_neg g2, if_neg g3, if_neg g4, if_neg g5, if_neg g6, if_neg g7, if_neg g8, if_pos g9]
    have hcv : Char.ofNat 11 = c := by rw [← g9, Char.ofNat_toNat]
    have hres := parseYDBody_esc fuel ('v' :: T) (Char.ofNat 11) T s2 r2
      (parseYDEsc_named 'v' T (Char.ofNat 11) (by decide) (by decide)
        (by decide) (by decide)) hcont
    rw [hcv] at hres
    simpa using hres
  by_cases g10 : c.toNat = 12
  · rw [yDChar, if_neg g1, if_neg g2, if_neg g3, if_neg g4, if_neg g5, if_neg g6, if_neg g7, if_neg g8, if_neg g9, if_pos g10]
    have hcv : Char.ofNat 12 = c := by rw [← g10, Char.ofNat_toNat]
    have hres := parseYDBody_esc fuel ('f' :: T) (Char.ofNat 12) T s2 r2
      (parseYDEsc_named 'f' T (Char.ofNat 12) (by decide) (by decide)
        (by decide) (by decide)) hcont
    rw [hcv] at hres
    simpa using hres
  by_cases g11 : c.toNat = 13
  · rw [yDChar, if_neg g1, if_neg g2, if_neg g3, if_neg g4, if_neg g5, if_neg g6, if_neg g7, if_neg g8, if_neg g9, if_neg g10, if_pos g11]
    have hcv : Char.ofNat 13 = c := by rw [← g11, Char.ofNat_toNat]
    have hres := parseYDBody_esc fuel ('r' :: T) (Char.ofNat 13) T s2 r2
      (parseYDEsc_named 'r' T (Char.ofNat 13) (by decide) (by decide)
        (by decide) (by decide)) hcont
    rw [hcv] at hres
    simpa using hres
  by_cases g12 : c.toNat = 27
  · rw [yDChar, if_neg g1, if_neg g2, if_neg g3, if_neg g4, if_neg g5, if_neg g6, if_neg g7, if_neg g8, if_neg g9, if_neg g10, if_neg g11, if_pos g12]
    have hcv : Char.ofNat 27 = c := by rw [← g12, Char.ofNat_toNat]
    have hres := parseYDBody_esc fuel ('e' :: T) (Char.ofNat 27) T s2 r2
      (parseYDEsc_named 'e' T (Char.ofNat 27) (by decide) (by decide)
        (by decide) (by decide)) hcont
    rw [hcv] at hres
    simpa using hres
  by_cases g13 : c.toNat = 0x85
  · rw [yDChar, if_neg g1, if_neg g2, if_neg g3, if_neg g4, if_neg g5, if_neg g6, if_neg g7, if_neg g8, if_neg g9, if_neg g10, if_neg g11, if_neg g12, if_pos g13]
    have hcv : Char.ofNat 0x85 = c := by rw [← g13, Char.ofNat_toNat]
    have hres := parseYDBody_esc fuel ('N' :: T) (Char.ofNat 0x85) T s2 r2
      (parseYDEsc_named 'N' T (Char.ofNat 0x85) (by decide) (by decide)
        (by decide) (by decide)) hcont
    rw [hcv] at hres
    simpa using hres
  by_cases g14 : c.toNat = 0xA0
  · rw [yDChar, if_neg g1, if_neg g2, if_neg g3, if_neg g4, if_neg g5, if_neg g6, if_neg g7, if_neg g8, if_neg g9, if_neg g10, if_neg g11, if_neg g12, if_neg g13, if_pos g14]
    have hcv : Char.ofNat 0xA0 = c := by rw [← g14, Char.ofNat_toNat]
    have hres := parseYDBody_esc fuel ('_' :: T) (Char.ofNat 0xA0) T s2 r2
      (parseYDEsc_named '_' T (Char.ofNat 0xA0) (by decide) (by decide)
        (by decide) (by decide)) hcont
    rw [hcv] at hres
    simpa using hres
  by_cases g15 : c.toNat = 0x2028
  · rw [yDChar, if_neg g1, if_neg g2, if_neg g3, if_neg g4, if_neg g5, if_neg g6, if_neg g7, if_neg g8, if_neg g9, if_neg g10, if_neg g11, if_neg g12, if_neg g13, if_neg g14, if_pos g15]
    have hcv : Char.ofNat 0x2028 = c := by rw [← g15, Char.ofNat_toNat]
    have hres := parseYDBody_esc fuel ('L' :: T) (Char.ofNat 0x2028) T s2 r2
      (parseYDEsc_named 'L' T (Char.ofNat 0x2028) (by decide) (by decide)
        (by decide) (by decide)) hcont
    rw [hcv] at hres
    simpa using hres
  by_cases g16 : c.toNat = 0x2029
  · rw [yDChar, if_neg g1, if_neg g2, if_neg g3, if_neg g4, if_neg g5, if_neg g6, if_neg g7, if_neg g8, if_neg g9, if_neg g10, if_neg g11, if_neg g12, if_neg g13, if_neg g14, if_neg g15, if_pos g16]
    have hcv : Char.ofNat 0x2029 = c := by rw [← g16, Char.ofNat_toNat]
    have hres := parseYDBody_esc fuel ('P' :: T) (Char.ofNat 0x2029) T s2 r2
      (parseYDEsc_named 'P' T (Char.ofNat 0x2029) (by decide) (by decide)
        (by decide) (by decide)) hcont
    rw [hcv] at hres
    simpa using hres
  by_cases gx : c.toNat < 0x100
  · rw [yDChar, if_neg g1, if_neg g2, if_neg g3, if_neg g4, if_neg g5, if_neg g6, if_neg g7, if_neg g8, if_neg g9, if_neg g10, if_neg g11, if_neg g12, if_neg g13, if_neg g14, if_neg g15, if_neg g16, if_pos gx]
    simp only [List.cons_append, List.nil_append, List.append_assoc]
    refine parseYDBody_esc fuel _ c T s2 r2 ?_ hcont
    rw [parseYDEsc_x, parseYDx_hex c T gx]
  by_cases gu : c.toNat < 0x10000
  · rw [yDChar, if_neg g1, if_neg g2, if_neg g3, if_neg g4, if_neg g5, if_neg g6, if_neg g7, if_neg g8, if_neg g9, if_neg g10, if_neg g11, if_neg g12, if_neg g13, if_neg g14, if_neg g15, if_neg g16, if_neg gx, if_pos gu]
    simp only [List.cons_append, List.nil_append, List.append_assoc]
    refine parseYDBody_esc fuel _ c T s2 r2 ?_ hcont
    rw [parseYDEsc_u, parseYDu_hex c T gu]
  · rw [yDChar, if_neg g1, if_neg g2, if_neg g3, if_neg g4, if_neg g5, if_neg g6, if_neg g7, if_neg g8, if_neg g9, if_neg g10, if_neg g11, if_neg g12, if_neg g13, if_neg g14, if_neg g15, if_neg g16, if_neg gx, if_neg gu]
    simp only [List.cons_append, List.nil_append, List.append_assoc]
    refine parseYDBody_esc fuel _ c T s2 r2 ?_ hcont
    rw [parseYDEsc_U, parseYDU_hex c T]

theorem parseYDBody_enc (s : Str) : ∀ (fuel : Nat), s.length + 1 ≤ fuel →
    ∀ (tail : Str),
    parseYDBody fuel ((s.map yDChar).flatten ++ '"' :: tail)
      = some (s, tail) := by
  induction s with
  | nil =>
    intro fuel hf tail
    obtain ⟨f, rfl⟩ : ∃ f, fuel = f + 1 := ⟨fuel - 1, by omega⟩
    simp only [List.map_nil, List.flatten_nil, List.nil_append]
    exact parseYDBody_quote f tail
  | cons c s ih =>
    intro fuel hf tail
    obtain ⟨f, rfl⟩ : ∃ f, fuel = f + 1 := ⟨fuel - 1, by omega⟩
    simp only [List.map_cons, List.flatten_cons, List.append_assoc]
    refine parseYDBody_encChar c f _ s tail (ih f ?_ tail)
    simp only [List.length_cons] at hf
    omega

theorem sqPeek_nil : sqPeek [] = .closed [] := rfl

theorem sqPeek_quote (r2 : Str) : sqPeek ('\'' :: r2) = .escaped r2 := by
  show (if ('\'' : Char) = '\'' then SQStep.escaped r2
    else .closed ('\'' :: r2)) = .escaped r2
  rw [if_pos rfl]

theorem sqPeek_other (q : Char) (r2 : Str) (h : q ≠ '\'') :
    sqPeek (q :: r2) = .closed (q :: r2) := by
  show (if q = '\'' then SQStep.escaped r2 else .closed (q :: r2))
    = .closed (q :: r2)
  rw [if_neg h]

theorem parseYSBody_close (fuel : Nat) (rest : Str)
    (h : rest.head? ≠ some '\'') :
    parseYSBody (fuel + 1) ('\'' :: rest) = some ([], rest) := by
  rw [parseYSBody, if_pos rfl]
  cases rest with
  | nil => rw [sqPeek_nil]
  | cons q r2 =>
    have hq : q ≠ '\'' := by
      intro he
      apply h
      rw [he]
      rfl
    rw [sqPeek_other q r2 hq]

theorem parseYSBody_escq (fuel : Nat) (r2 s2 rr : Str)
    (hcont : parseYSBody fuel r2 = some (s2, rr)) :
    parseYSBody (fuel + 1) ('\'' :: '\'' :: r2) = some ('\'' :: s2, rr) := by
  rw [parseYSBody, if_pos rfl, sqPeek_quote]
  show (match parseYSBody fuel r2 with
    | some pr => some ('\'' :: pr.1, pr.2)
    | none => none) = some ('\'' :: s2, rr)
  rw [hcont]

theorem parseYSBody_other (fuel : Nat) (c : Char) (rest s2 rr : Str)
    (h : c ≠ '\'') (hcont : parseYSBody fuel rest = some (s2, rr)) :
    parseYSBody (fuel + 1) (c :: rest) = some (c :: s2, rr) := by
  rw [parseYSBody, if_neg h]
  show (match parseYSBody fuel rest with
    | some pr => some (c :: pr.1, pr.2)
    | none => none) = some (c :: s2, rr)
  rw [hcont]

theorem parseYSBody_enc (s : Str) : ∀ (fuel : Nat), s.length + 1 ≤ fuel →
    ∀ (rest : Str), rest.head? ≠ some '\'' →
    parseYSBody fuel (sqEsc s ++ '\'' :: rest) = some (s, rest) := by
  induction s with
  | nil =>
    intro fuel hf rest hrest
    obtain ⟨f, rfl⟩ : ∃ f, fuel = f + 1 := ⟨fuel - 1, by omega⟩
    rw [show sqEsc [] = [] from rfl, List.nil_append]
    exact parseYSBody_close f rest hrest
  | cons c s ih =>
    intro fuel hf rest hrest
    obtain ⟨f, rfl⟩ : ∃ f, fuel = f + 1 := ⟨fuel - 1, by omega⟩
    have hsq : sqEsc (c :: s)
        = (if c = '\'' then ['\'', '\''] else [c]) ++ sqEsc s := by
      rw [sqEsc, List.map_cons, List.flatten_cons, sqEsc]
    rw [hsq]
    by_cases hc : c = '\''
    · subst hc
      rw [if_pos rfl]
      simp only [List.cons_append, List.nil_append, List.append_assoc]
      exact parseYSBody_escq f _ s rest
        (ih f (by simp only [List.length_cons] at hf; omega) rest hrest)
    · rw [if_neg hc, List.singleton_append]
      exact parseYSBody_other f c _ s rest hc
        (ih f (by simp only [List.length_cons] at hf; omega) rest hrest)

/-! ### Lemmas: YAML keys, values and entries round trip -/

theorem takeWhile_stop (p : Char → Bool) (t : Str) (c0 : Char) (X : Str)
    (h : ∀ c ∈ t, p c = true) (hstop : p c0 = false) :
    (t ++ c0 :: X).takeWhile p = t ∧ (t ++ c0 :: X).dropWhile p = c0 :: X := by
  induction t with
  | nil =>
    constructor
    · simp [List.takeWhile_cons, hstop]
    · simp [List.dropWhile_cons, hstop]
  | cons a t ih =>
    have ha := h a (by simp)
    obtain ⟨ih1, ih2⟩ := ih (fun c hc => h c (by simp [hc]))
    constructor
    · simp [List.takeWhile_cons, ha, ih1]
    · simp [List.dropWhile_cons, ha, ih2]

theorem plainChar_ne (c : Char) (h : plainChar c = true) :
    c ≠ ':' ∧ c ≠ '\n' ∧ c ≠ '\'' ∧ c ≠ '"' := by
  refine ⟨?_, ?_, ?_, ?_⟩ <;> intro he <;> subst he <;> revert h <;> decide

theorem isAlpha_ne (c : Char) (h : c.isAlpha = true) :
    c ≠ '\'' ∧ c ≠ '"' := by
  refine ⟨?_, ?_⟩ <;> intro he <;> subst he <;> revert h <;> decide

theorem plainOk_facts (k : Str) (h : plainOk k = true) :
    (∀ c ∈ k, plainChar c = true) ∧ k ≠ ['n', 'u', 'l', 'l'] ∧
    (∃ c t, k = c :: t ∧ c.isAlpha = true) := by
  cases k with
  | nil => exact absurd h (by decide)
  | cons c t =>
    rw [plainOk, Bool.and_eq_true, Bool.and_eq_true, Bool.and_eq_true] at h
    obtain ⟨⟨⟨halpha, hall⟩, _⟩, hwords⟩ := h
    refine ⟨List.all_eq_true.mp hall, ?_, c, t, rfl, halpha⟩
    intro he
    rw [he] at hwords
    exact absurd hwords (by decide)

theorem sqEsc_length (s : Str) : s.length ≤ (sqEsc s).length := by
  induction s with
  | nil => simp [sqEsc]
  | cons c s ih =>
    have hstep : sqEsc (c :: s)
        = (if c = '\'' then ['\'', '\''] else [c]) ++ sqEsc s := by
      rw [sqEsc, List.map_cons, List.flatten_cons, sqEsc]
    rw [hstep]
    by_cases hc : c = '\''
    · rw [if_pos hc]
      simp only [List.length_append, List.length_cons, List.length_nil]
      omega
    · rw [if_neg hc]
      simp only [List.length_append, List.length_cons, List.length_nil]
      omega

theorem head_ne_quote (c : Char) (t : Str) (h : c ≠ '\'') :
    (c :: t).head? ≠ some '\'' := by
  rw [List.head?_cons]
  intro he
  exact h (Option.some.inj he)

theorem yDChar_length_pos (c : Char) : 1 ≤ (yDChar c).length := by
  rw [yDChar]
  by_cases g1 : c = '"'
  · rw [if_pos g1]
    simp [hex2U, hex4U, hex8U]
  rw [if_neg g1]
  by_cases g2 : c = '\\'
  · rw [if_pos g2]
    simp [hex2U, hex4U, hex8U]
  rw [if_neg g2]
  by_cases g3 : 0x20 ≤ c.toNat ∧ c.toNat ≤ 0x7E
  · rw [if_pos g3]
    simp [hex2U, hex4U, hex8U]
  rw [if_neg g3]
  by_cases g4 : c.toNat = 0
  · rw [if_pos g4]
    simp [hex2U, hex4U, hex8U]
  rw [if_neg g4]
  by_cases g5 : c.toNat = 7
  · rw [if_pos g5]
    simp [hex2U, hex4U, hex8U]
  rw [if_neg g5]
  by_cases g6 : c.toNat = 8
  · rw [if_pos g6]
    simp [hex2U, hex4U, hex8U]
  rw [if_neg g6]
  by_cases g7 : c.toNat = 9
  · rw [if_pos g7]
    simp [hex2U, hex4U, hex8U]
  rw [if_neg g7]
  by_cases g8 : c.toNat = 10
  · rw [if_pos g8]
    simp [hex2U, hex4U, hex8U]
  rw [if_neg g8]
  by_cases g9 : c.toNat = 11
  · rw [if_pos g9]
    simp [hex2U, hex4U, hex8U]
  rw [if_neg g9]
  by_cases g10 : c.toNat = 12
  · rw [if_pos g10]
    simp [hex2U, hex4U, hex8U]
  rw [if_neg g10]
  by_cases g11 : c.toNat = 13
  · rw [if_pos g11]
    simp [hex2U, hex4U, hex8U]
  rw [if_neg g11]
  by_cases g12 : c.toNat = 27
  · rw [if_pos g12]
    simp [hex2U, hex4U, hex8U]
  rw [if_neg g12]
  by_cases g13 : c.toNat = 0x85
  · rw [if_pos g13]
    simp [hex2U, hex4U, hex8U]
  rw [if_neg g13]
  by_cases g14 : c.toNat = 0xA0
  · rw [if_pos g14]
    simp [hex2U, hex4U, hex8U]
  rw [if_neg g14]
  by_cases g15 : c.toNat = 0x2028
  · rw [if_pos g15]
    simp [hex2U, hex4U, hex8U]
  rw [if_neg g15]
  by_cases g16 : c.toNat = 0x2029
  · rw [if_pos g16]
    simp [hex2U, hex4U, hex8U]
  rw [if_neg g16]
  by_cases g17 : c.toNat < 0x100
  · rw [if_pos g17]
    simp [hex2U, hex4U, hex8U]
  rw [if_neg g17]
  by_cases g18 : c.toNat < 0x10000
  · rw [if_pos g18]
    simp [hex2U, hex4U, hex8U]
  rw [if_neg g18]
  simp [hex2U, hex4U, hex8U]

theorem yDEncLen (s : Str) : s.length ≤ ((s.map yDChar).flatten).length := by
  induction s with
  | nil => simp
  | cons c s ih =>
    simp only [List.map_cons, List.flatten_cons, List.length_append,
      List.length_cons]
    have := yDChar_length_pos c
    omega

theorem parseYKey_emit (k : Str) (tail : Str) :
    parseYKey (emitScalar k ++ ':' :: ' ' :: tail) = some (k, tail) := by
  rw [emitScalar]
  by_cases hp : plainOk k = true
  · rw [if_pos hp]
    obtain ⟨hall, hnull, c, t, hk, halpha⟩ := plainOk_facts k hp
    subst hk
    have hcq := isAlpha_ne c halpha
    have hspan := takeWhile_stop (fun c2 => c2 != ':') t ':' (' ' :: tail)
      (fun c2 hc2 => by
        simp only [bne_iff_ne, ne_eq, decide_eq_true_eq]
        exact (plainChar_ne c2 (hall c2 (by simp [hc2]))).1)
      (by decide)
    simp only [List.cons_append]
    rw [parseYKey, if_neg hcq.1, if_neg hcq.2]
    have hcc : ((fun c2 => c2 != ':') c) = true := by
      simp only [bne_iff_ne, ne_eq, decide_eq_true_eq]
      exact (plainChar_ne c (hall c (by simp))).1
    simp only [List.takeWhile_cons, List.dropWhile_cons, hcc, if_true,
      hspan.1, hspan.2, List.isEmpty_cons]
    rfl
  by_cases hs : (List.all k printableAscii) = true
  · rw [if_neg hp, if_pos hs]
    simp only [List.cons_append, List.append_assoc, List.singleton_append,
      List.nil_append]
    rw [parseYKey, if_pos rfl]
    have hb : k.length + 1 ≤ (sqEsc k ++ '\'' :: ':' :: ' ' :: tail).length := by
      simp only [List.length_append, List.length_cons]
      have := sqEsc_length k
      omega
    rw [parseYSBody_enc k _ hb (':' :: ' ' :: tail)
      (head_ne_quote ':' _ (by decide))]
    rfl
  · rw [if_neg hp, if_neg hs]
    simp only [List.cons_append, List.append_assoc, List.singleton_append,
      List.nil_append]
    rw [parseYKey, if_neg (by decide), if_pos rfl]
    have hb : k.length + 1
        ≤ ((k.map yDChar).flatten ++ '"' :: ':' :: ' ' :: tail).length := by
      simp only [List.length_append, List.length_cons]
      have := yDEncLen k
      omega
    rw [parseYDBody_enc k _ hb (':' :: ' ' :: tail)]
    rfl

theorem parseYVal_emit (v : Option Str) (tail : Str) :
    parseYVal (yamlValStr v ++ '\n' :: tail) = some (v, tail) := by
  cases v with
  | none =>
    rw [yamlValStr]
    simp only [List.cons_append, List.nil_append]
    rfl
  | some s =>
    rw [yamlValStr, emitScalar]
    by_cases hp : plainOk s = true
    · rw [if_pos hp]
      obtain ⟨hall, hnull, c, t, hk, halpha⟩ := plainOk_facts s hp
      subst hk
      have hcq := isAlpha_ne c halpha
      have hspan := takeWhile_stop (fun c2 => c2 != '\n') t '\n' tail
        (fun c2 hc2 => by
          simp only [bne_iff_ne, ne_eq, decide_eq_true_eq]
          exact (plainChar_ne c2 (hall c2 (by simp [hc2]))).2.1)
        (by decide)
      simp only [List.cons_append]
      rw [parseYVal, if_neg hcq.1, if_neg hcq.2]
      have hcc : ((fun c2 => c2 != '\n') c) = true := by
        simp only [bne_iff_ne, ne_eq, decide_eq_true_eq]
        exact (plainChar_ne c (hall c (by simp))).2.1
      simp only [List.takeWhile_cons, List.dropWhile_cons, hcc, if_true,
        hspan.1, hspan.2]
      rw [show expectNl (resolvePlain (c :: t)) ('\n' :: tail)
          = some (resolvePlain (c :: t), tail) from rfl]
      rw [resolvePlain, if_neg (by simp only [beq_iff_eq]; exact hnull)]
    by_cases hsq : (List.all s printableAscii) = true
    · rw [if_neg hp, if_pos hsq]
      simp only [List.cons_append, List.append_assoc, List.singleton_append,
        List.nil_append]
      rw [parseYVal, if_pos rfl]
      have hb : s.length + 1 ≤ (sqEsc s ++ '\'' :: '\n' :: tail).length := by
        simp only [List.length_append, List.length_cons]
        have := sqEsc_length s
        omega
      rw [parseYSBody_enc s _ hb ('\n' :: tail)
        (head_ne_quote '\n' _ (by decide))]
      rfl
    · rw [if_neg hp, if_neg hsq]
      simp only [List.cons_append, List.append_assoc, List.singleton_append,
        List.nil_append]
      rw [parseYVal, if_neg (by decide), if_pos rfl]
      have hb : s.length + 1
          ≤ ((s.map yDChar).flatten ++ '"' :: '\n' :: tail).length := by
        simp only [List.length_append, List.length_cons]
        have := yDEncLen s
        omega
      rw [parseYDBody_enc s _ hb ('\n' :: tail)]
      rfl

theorem parseYEntry_emit (p : Str × Option Str) (X : Str) :
    parseYEntry (emitEntry p ++ X) = some (p, X) := by
  obtain ⟨k, v⟩ := p
  rw [emitEntry]
  simp only [List.cons_append, List.append_assoc, List.singleton_append,
    List.nil_append]
  rw [parseYEntry, parseYKey_emit k (yamlValStr v ++ '\n' :: X)]
  show (match parseYVal (yamlValStr v ++ '\n' :: X) with
    | none => none
    | some (v2, r2) => some ((k, v2), r2)) = some ((k, v), X)
  rw [parseYVal_emit v X]

/-! ### Lemmas: YAML blocks round trip -/

theorem isAlpha_ne_marks (c : Char) (h : c.isAlpha = true) :
    c ≠ '{' ∧ c ≠ '-' ∧ c ≠ ' ' := by
  refine ⟨?_, ?_, ?_⟩ <;> intro he <;> subst he <;> revert h <;> decide

theorem emitScalar_shape (k : Str) (Y : Str) :
    ∃ c T, emitScalar k ++ Y = c :: T ∧ c ≠ '{' := by
  rw [emitScalar]
  by_cases hp : plainOk k = true
  · rw [if_pos hp]
    obtain ⟨_, _, c, t, hk, halpha⟩ := plainOk_facts k hp
    subst hk
    exact ⟨c, t ++ Y, by simp, (isAlpha_ne_marks c halpha).1⟩
  by_cases hs : (List.all k printableAscii) = true
  · rw [if_neg hp, if_pos hs]
    exact ⟨'\'', (sqEsc k ++ ['\'']) ++ Y, by simp, by decide⟩
  · rw [if_neg hp, if_neg hs]
    exact ⟨'"', ((k.map yDChar).flatten ++ ['"']) ++ Y, by simp, by decide⟩

theorem yEmptyMap_ne (c : Char) (r : Str) (h : c ≠ '{') :
    yEmptyMap (c :: r) = none := by
  show (if c = '{' then
    (match r with
     | c2 :: c3 :: r2 => if c2 = '}' ∧ c3 = '\n' then some r2 else none
     | _ => none) else none) = none
  rw [if_neg h]

theorem yEmptyMap_entry (p : Str × Option Str) (X : Str) :
    yEmptyMap (emitEntry p ++ X) = none := by
  obtain ⟨k, v⟩ := p
  rw [emitEntry]
  simp only [List.append_assoc, List.cons_append, List.singleton_append,
    List.nil_append]
  obtain ⟨c, T, hT, hc⟩ := emitScalar_shape k
    (':' :: ' ' :: (yamlValStr v ++ '\n' :: X))
  rw [hT, yEmptyMap_ne c _ hc]

theorem yContStep_sp (r : Str) : yContStep (' ' :: ' ' :: r) = some r := rfl

theorem yContStep_nil : yContStep [] = none := rfl

theorem yContStep_dash (r : Str) : yContStep ('-' :: ' ' :: r) = none := by
  show (if ('-' : Char) = ' ' ∧ (' ' : Char) = ' ' then some r else none) = none
  rw [if_neg (by decide)]

theorem yBlockStep_dash (r : Str) : yBlockStep ('-' :: ' ' :: r) = some r := by
  show (if ('-' : Char) = '-' ∧ (' ' : Char) = ' ' then some r else none) = some r
  rw [if_pos (by decide)]

theorem yEmptyMap_hit (r : Str) :
    yEmptyMap ('{' :: '}' :: '\n' :: r) = some r := rfl

theorem yContStep_blocks (rs : List Record) :
    yContStep ((rs.map emitBlock).flatten) = none := by
  cases rs with
  | nil => rfl
  | cons r rs' =>
    simp only [List.map_cons, List.flatten_cons]
    rw [emitBlock]
    cases hs : sortRec r with
    | nil => rfl
    | cons p ps =>
      simp only [List.cons_append]
      exact yContStep_dash _

theorem parseYCont_emit (es : Record) : ∀ (fuel : Nat), es.length + 1 ≤ fuel →
    ∀ (X : Str), yContStep X = none →
    parseYCont fuel (emitEntriesCont es ++ X) = some (es, X) := by
  induction es with
  | nil =>
    intro fuel hf X hX
    obtain ⟨f, rfl⟩ : ∃ f, fuel = f + 1 := ⟨fuel - 1, by omega⟩
    rw [show emitEntriesCont [] = [] from rfl, List.nil_append, parseYCont, hX]
  | cons p es ih =>
    intro fuel hf X hX
    obtain ⟨f, rfl⟩ : ∃ f, fuel = f + 1 := ⟨fuel - 1, by omega⟩
    rw [show emitEntriesCont (p :: es)
      = ' ' :: ' ' :: (emitEntry p ++ emitEntriesCont es) from rfl]
    simp only [List.cons_append, List.append_assoc]
    rw [parseYCont]
    simp only [yContStep_sp, parseYEntry_emit p (emitEntriesCont es ++ X),
      ih f (by simp only [List.length_cons] at hf; omega) X hX]

/-- The fuel needed by the block loop: one unit per block plus its entry
count, and one for the final empty check. -/
def yweight : List Record → Nat
  | [] => 1
  | r :: rs => 1 + (sortRec r).length + yweight rs

theorem parseYBlocks_emit (rs : List Record) : ∀ (fuel : Nat),
    yweight rs ≤ fuel →
    parseYBlocks fuel ((rs.map emitBlock).flatten) = some (rs.map sortRec) := by
  induction rs with
  | nil =>
    intro fuel hf
    obtain ⟨f, rfl⟩ : ∃ f, fuel = f + 1 :=
      ⟨fuel - 1, by rw [yweight] at hf; omega⟩
    rfl
  | cons r rs' ih =>
    intro fuel hf
    obtain ⟨f, rfl⟩ : ∃ f, fuel = f + 1 :=
      ⟨fuel - 1, by rw [yweight] at hf; omega⟩
    simp only [List.map_cons, List.flatten_cons]
    cases hs : sortRec r with
    | nil =>
      have harg : yweight rs' ≤ f := by
        rw [yweight, hs] at hf
        simp only [List.length_nil] at hf
        omega
      have hih := ih f harg
      rw [show emitBlock r = ['-', ' ', '{', '}', '\n'] from by
        rw [emitBlock, hs]]
      simp only [List.cons_append, List.nil_append]
      rw [parseYBlocks, if_neg (by simp)]
      simp only [yBlockStep_dash, yEmptyMap_hit, hih]
    | cons p ps =>
      have harg : yweight rs' ≤ f ∧ ps.length + 1 ≤ f := by
        rw [yweight, hs] at hf
        simp only [List.length_cons] at hf
        omega
      have hih := ih f harg.1
      have hc : parseYCont f (emitEntriesCont ps ++ (rs'.map emitBlock).flatten)
          = some (ps, (rs'.map emitBlock).flatten) :=
        parseYCont_emit ps f harg.2 _ (yContStep_blocks rs')
      rw [show emitBlock r = '-' :: ' ' :: (emitEntry p ++ emitEntriesCont ps)
        from by rw [emitBlock, hs]]
      simp only [List.cons_append, List.append_assoc]
      rw [parseYBlocks, if_neg (by simp)]
      simp only [yBlockStep_dash, yEmptyMap_entry, parseYEntry_emit, hc, hih]

theorem emitEntry_length_pos (p : Str × Option Str) :
    1 ≤ (emitEntry p).length := by
  rw [emitEntry]
  simp only [List.length_append, List.length_cons]
  omega

theorem emitEntriesCont_length (es : Record) :
    es.length ≤ (emitEntriesCont es).length := by
  induction es with
  | nil => simp [emitEntriesCont]
  | cons p es ih =>
    rw [show emitEntriesCont (p :: es)
      = ' ' :: ' ' :: (emitEntry p ++ emitEntriesCont es) from rfl]
    simp only [List.length_cons, List.length_append]
    omega

theorem emitBlock_length (r : Record) :
    2 + (sortRec r).length ≤ (emitBlock r).length := by
  rw [emitBlock]
  cases hs : sortRec r with
  | nil => simp
  | cons p ps =>
    have h1 := emitEntry_length_pos p
    have h2 := emitEntriesCont_length ps
    simp only [List.length_cons, List.length_append]
    omega

theorem yweight_le (rs : List Record) (h : rs ≠ []) :
    yweight rs ≤ ((rs.map emitBlock).flatten).length := by
  induction rs with
  | nil => exact absurd rfl h
  | cons r rs' ih =>
    rw [yweight]
    simp only [List.map_cons, List.flatten_cons, List.length_append]
    have hb := emitBlock_length r
    cases rs' with
    | nil =>
      rw [yweight]
      simp only [List.map_nil, List.flatten_nil, List.length_nil]
      omega
    | cons r2 rs2 =>
      have := ih (by simp)
      omega

theorem emitBlock_shape (r : Record) :
    ∃ B, emitBlock r = '-' :: ' ' :: B := by
  rw [emitBlock]
  cases sortRec r with
  | nil => exact ⟨['{', '}', '\n'], rfl⟩
  | cons p ps => exact ⟨emitEntry p ++ emitEntriesCont ps, rfl⟩

theorem yamlParse_encode (rs : List Record) :
    yamlParse (yamlEncode rs) = some (rs.map sortRec) := by
  cases rs with
  | nil => rfl
  | cons r rs' =>
    rw [show yamlEncode (r :: rs') = ((r :: rs').map emitBlock).flatten
      from rfl]
    obtain ⟨B, hB⟩ := emitBlock_shape r
    have hne : ((((r :: rs').map emitBlock).flatten)
        == ['[', ']', '\n']) = false := by
      simp only [List.map_cons, List.flatten_cons, hB, List.cons_append]
      rfl
    rw [yamlParse, if_neg (by rw [hne]; exact Bool.false_ne_true)]
    refine parseYBlocks_emit (r :: rs') _ ?_
    exact yweight_le (r :: rs') (by simp)

/-! ## Claim theorems (CSV loading and lookup) -/

/-- C1: for every valid CSV input file — a header line of field names
followed by N data rows — `read_inventory` emits no diagnostic and returns
exactly N records, the i-th record mapping each header field name to the
positionally corresponding value of the i-th data row, in file order. -/
theorem read_inventory_valid_csv (header : List Str) (rows : List (List Str))
    (fname : Str) (h : validCsv header rows) :
    read_inventory (.present (linesOf (csvRender header rows))) fname
      = ([], csvRecords header rows) := by
  have hev := read_inventory_valid_events header rows fname [] h
  rw [List.append_nil] at hev
  rw [hev, readLoop]

theorem read_inventory_valid_csv_witness :
    validCsv ["Name".data, "Management IP".data, "Description".data]
        [["sw1".data, "10.0.0.1".data, "core switch".data],
         ["sw2".data, "10.0.0.2".data, "edge".data]] ∧
    read_inventory (.present (linesOf (csvRender
        ["Name".data, "Management IP".data, "Description".data]
        [["sw1".data, "10.0.0.1".data, "core switch".data],
         ["sw2".data, "10.0.0.2".data, "edge".data]]))) "inventory.csv".data
      = ([], csvRecords ["Name".data, "Management IP".data, "Description".data]
          [["sw1".data, "10.0.0.1".data, "core switch".data],
           ["sw2".data, "10.0.0.2".data, "edge".data]]) :=
  ⟨by decide, read_inventory_valid_csv _ _ _ (by decide)⟩

/-- C4: `get_device_data` is the first-match linear scan on the Name field:
it returns the first record (in sequence order) whose Name equals the query —
in particular the first of several duplicates — and `none` when no record
matches, including on an empty inventory. -/
theorem get_device_data_first_match (inv : List Record) (name : Str) :
    get_device_data inv name
      = inv.find? (fun d => pyGet d sName == some name) := by
  induction inv with
  | nil => rfl
  | cons d rest ih =>
    rw [get_device_data]
    by_cases h : (pyGet d sName == some name) = true
    · simp [List.find?, h]
    · simp [List.find?, h, ih]

/-- C5: on a path naming no existing file, `read_inventory` prints the
`not found` diagnostic, returns the empty sequence, and (being a total
function of the model) neither aborts nor raises. -/
theorem read_inventory_missing_file (filename : Str) :
    read_inventory .absent filename
      = ([sNotFound1 ++ filename ++ sNotFound2], []) := rfl

/-- C6 counterexample: a read failure that occurs after a data row has been
parsed is caught and reported, but `read_inventory` returns the already
parsed row — a non-empty sequence — contradicting the claim that it returns
an empty sequence on every non-absence failure. -/
theorem read_inventory_error_partial_cex :
    read_inventory (.present [.line "Name".data, .line "sw1".data,
        .ioError "disk failure".data]) "inventory.csv".data
      = (["Error reading inventory: disk failure".data],
         [[("Name".data, some "sw1".data)]]) ∧
    [[(("Name".data : Str), some "sw1".data)]] ≠ ([] : List Record) := by
  constructor
  · rfl
  · decide

/-- C6 amended: a failure during reading is caught and reported as
`Error reading inventory: ...`, and `read_inventory` returns the records
parsed before the failure (the rows of the valid prefix) — the empty
sequence only when the failure strikes before any data row was parsed. -/
theorem read_inventory_error_returns_partial (header : List Str)
    (rows : List (List Str)) (fname : Str) (e : Str) (tail : List LineEvent)
    (h : validCsv header rows) :
    read_inventory (.present (linesOf (csvRender header rows)
        ++ .ioError e :: tail)) fname
      = ([sErrReading ++ e], csvRecords header rows) := by
  rw [read_inventory_valid_events header rows fname (.ioError e :: tail) h,
    readLoop]

theorem read_inventory_error_returns_partial_witness :
    validCsv ["Name".data] [["sw1".data]] ∧
    read_inventory (.present (linesOf (csvRender ["Name".data] [["sw1".data]])
        ++ .ioError "boom".data :: [])) "inv.csv".data
      = ([sErrReading ++ "boom".data], csvRecords ["Name".data] [["sw1".data]]) :=
  ⟨by decide, read_inventory_error_returns_partial _ _ _ _ _ (by decide)⟩

/-! ## Claim theorems (JSON round trip) -/

/-- C2: exporting any sequence of records with `write_json` writes the
`indent=2` JSON dump to the chosen file, and parsing that JSON text yields a
sequence of objects equal key/value-wise (indeed equal as ordered records) to
the original sequence. -/
theorem write_json_roundtrip (rs : List Record) (fname : Str) :
    (write_json (fun _ => none) rs fname).writes = [(fname, jsonEncode rs)] ∧
    jsonParse (jsonEncode rs) = some rs :=
  ⟨rfl, jsonParse_encode rs⟩

/-! ## Claim theorems (YAML round trip) -/

theorem assocFind_cons {α : Type} (p : Str × α) (rest : List (Str × α))
    (k : Str) :
    assocFind (p :: rest) k = if p.1 == k then some p.2 else assocFind rest k := by
  obtain ⟨k2, v⟩ := p
  rfl

theorem assocFind_perm {α : Type} {l l' : List (Str × α)} (hp : l.Perm l') :
    (l.map Prod.fst).Nodup → ∀ k, assocFind l k = assocFind l' k := by
  induction hp with
  | nil => intro _ _; rfl
  | cons x hpl ih =>
    intro hn k
    rw [List.map_cons, List.nodup_cons] at hn
    rw [assocFind_cons, assocFind_cons, ih hn.2 k]
  | swap x y l =>
    intro hn k
    have hne : y.1 ≠ x.1 := by
      rw [List.map_cons, List.map_cons, List.nodup_cons] at hn
      intro he
      exact hn.1 (by rw [he]; exact List.mem_cons_self _ _)
    rw [assocFind_cons, assocFind_cons, assocFind_cons, assocFind_cons]
    by_cases hy : (y.1 == k) = true
    · by_cases hx : (x.1 == k) = true
      · rw [beq_iff_eq] at hy hx
        exact absurd (hy.trans hx.symm) hne
      · simp [hy, hx]
    · simp [hy]
  | trans h1 h2 ih1 ih2 =>
    intro hn k
    rw [ih1 hn k, ih2 ((h1.map Prod.fst).nodup hn) k]

theorem sortRec_perm (r : Record) : (sortRec r).Perm r :=
  List.perm_insertionSort _ r

/-- C3: exporting any sequence of records with `write_yaml` writes the
block-style YAML dump to the chosen file, and parsing that text yields one
mapping per record, each listing the record's pairs in sorted key order — a
permutation of the original record, hence equal to it key/value-wise: on
records with distinct keys (every Python dict) every lookup agrees. -/
theorem write_yaml_roundtrip (rs : List Record) (fname : Str) :
    (write_yaml (fun _ => none) rs fname).writes = [(fname, yamlEncode rs)] ∧
    yamlParse (yamlEncode rs) = some (rs.map sortRec) ∧
    ∀ r ∈ rs, (sortRec r).Perm r ∧
      ((r.map Prod.fst).Nodup →
        ∀ k, assocFind (sortRec r) k = assocFind r k) := by
  refine ⟨rfl, yamlParse_encode rs, ?_⟩
  intro r _
  refine ⟨sortRec_perm r, fun hn k => ?_⟩
  exact assocFind_perm (sortRec_perm r)
    (((sortRec_perm r).symm.map Prod.fst).nodup hn) k

theorem write_yaml_roundtrip_witness :
    (([(("b".data : Str), (some "2".data : Option Str)),
        ("a".data, none)].map Prod.fst).Nodup) ∧
    assocFind (sortRec [("b".data, some "2".data), ("a".data, none)]) "a".data
      = assocFind [(("b".data : Str), (some "2".data : Option Str)),
          ("a".data, none)] "a".data :=
  ⟨by decide,
    ((write_yaml_roundtrip [[("b".data, some "2".data), ("a".data, none)]]
        "out.yaml".data).2.2 _ (List.mem_singleton.mpr rfl)).2 (by decide)
      "a".data⟩

/-! ## Claim theorems (the CLI driver) -/

theorem listLines_ok (ds : List Record)
    (h : ∀ r ∈ ds, (assocFind r sName).isSome ∧ (assocFind r sMgmtIP).isSome ∧
        (assocFind r sDescription).isSome) :
    ∃ lines, listLines ds = .ok lines := by
  induction ds with
  | nil => exact ⟨[], rfl⟩
  | cons d ds ih =>
    obtain ⟨h1, h2, h3⟩ := h d (List.mem_cons_self _ _)
    obtain ⟨lines, hl⟩ := ih (fun r hr => h r (List.mem_cons_of_mem _ hr))
    obtain ⟨n, hn⟩ := Option.isSome_iff_exists.mp h1
    obtain ⟨i, hi⟩ := Option.isSome_iff_exists.mp h2
    obtain ⟨de, hd⟩ := Option.isSome_iff_exists.mp h3
    refine ⟨(' ' :: ' ' :: (strOfVal n ++ ' ' :: '(' :: (strOfVal i ++
      ')' :: ' ' :: '-' :: ' ' :: strOfVal de))) :: lines, ?_⟩
    simp only [listLines, deviceLine, pyIndex, hn, hi, hd, hl]

/-- C7 counterexample: on `list` over an inventory whose header has `Name`
only, the loop body's `device['Management IP']` raises a `KeyError` that no
handler catches: the process terminates with an uncaught fault, so not every
error is caught and non-fatal. -/
theorem main_uncaught_keyerror_cex :
    mainCli ⟨CliAction.list, none, none, none, none, none, none, none,
        "inventory.csv".data⟩
      (.present (linesOf (csvRender ["Name".data] [["sw1".data]])))
      (fun _ => none)
      = .error (sKeyErr ++ Char.ofNat 39 :: (sMgmtIP ++ [Char.ofNat 39])) := by
  rfl

/-- C7 amended: the loader's missing-file and read failures and the writers'
failures are each caught and reported, and `add`/`export` always end
normally; the one uncaught fault is the `list` loop's subscripting, so the
run also ends normally on `list` whenever every loaded record carries the
three printed fields. -/
theorem main_errors_nonfatal (args : Args) (fd : FileData) (wenv : WEnv)
    (h : args.action = CliAction.list →
      ∀ r ∈ (read_inventory fd args.inventory).2,
        (assocFind r sName).isSome ∧ (assocFind r sMgmtIP).isSome ∧
          (assocFind r sDescription).isSome) :
    ∃ eff, mainCli args fd wenv = .ok eff := by
  obtain ⟨act, nm, ip, us, pw, de, fm, out, inv⟩ := args
  cases act with
  | add => exact ⟨⟨[], []⟩, rfl⟩
  | list =>
    obtain ⟨lines, hl⟩ := listLines_ok _ (h rfl)
    refine ⟨⟨(read_inventory fd inv).1 ++
      (sFound1 ++ Nat.toDigits 10 (read_inventory fd inv).2.length ++ sFound2)
        :: lines, []⟩, ?_⟩
    simp only [mainCli, hl]
  | «export» =>
    simp only [mainCli]
    by_cases hE : (read_inventory fd inv).2.isEmpty = true
    · rw [if_pos hE]
      exact ⟨_, rfl⟩
    · rw [if_neg hE]
      cases fm with
      | none => exact ⟨_, rfl⟩
      | some f =>
        cases f with
        | json => exact ⟨_, rfl⟩
        | yaml => exact ⟨_, rfl⟩

theorem main_errors_nonfatal_witness :
    ((⟨CliAction.list, none, none, none, none, none, none, none,
        "inventory.csv".data⟩ : Args).action = CliAction.list →
      ∀ r ∈ (read_inventory (.present (linesOf (csvRender
          ["Name".data, "Management IP".data, "Description".data]
          [["sw1".data, "10.0.0.1".data, "core".data]])))
          "inventory.csv".data).2,
        (assocFind r sName).isSome ∧ (assocFind r sMgmtIP).isSome ∧
          (assocFind r sDescription).isSome) ∧
    ∃ eff, mainCli ⟨CliAction.list, none, none, none, none, none, none, none,
        "inventory.csv".data⟩
      (.present (linesOf (csvRender
          ["Name".data, "Management IP".data, "Description".data]
          [["sw1".data, "10.0.0.1".data, "core".data]])))
      (fun _ => none) = .ok eff :=
  ⟨by intro _; decide, main_errors_nonfatal _ _ _ (by intro _; decide)⟩

/-- C8 counterexample: `export` with `--format` absent on a nonempty
inventory is accepted: `main` ends normally having printed nothing and
written no file — neither `if` arm matches, so the option is not required. -/
theorem export_no_format_cex :
    mainCli ⟨CliAction.export, none, none, none, none, none, none, none,
        "inventory.csv".data⟩
      (.present (linesOf (csvRender ["Name".data] [["sw1".data]])))
      (fun _ => none)
      = .ok ⟨[], []⟩ := by
  rfl

/-- C8 amended: `--format` is optional — with it absent, `export` writes
nothing and ends normally; with `--format json|yaml` and a nonempty
inventory, the chosen format's writer runs on `--output` when that is a
nonempty string and on the default `inventory.json`/`inventory.yaml`
otherwise. -/
theorem export_format_behavior (args : Args) (fd : FileData) (wenv : WEnv)
    (h : args.action = CliAction.export) :
    (args.format = none →
      mainCli args fd wenv = .ok ⟨(read_inventory fd args.inventory).1, []⟩) ∧
    (∀ fmt, args.format = some fmt →
      (read_inventory fd args.inventory).2 ≠ [] →
      mainCli args fd wenv = .ok
        ⟨(read_inventory fd args.inventory).1 ++
            (writeOf fmt wenv (read_inventory fd args.inventory).2
              (pyOr args.output (defaultName fmt))).printed,
          (writeOf fmt wenv (read_inventory fd args.inventory).2
            (pyOr args.output (defaultName fmt))).writes⟩) := by
  obtain ⟨act, nm, ip, us, pw, de, fm, out, inv⟩ := args
  cases h
  constructor
  · intro hf
    cases hf
    simp only [mainCli]
    by_cases hE : (read_inventory fd inv).2.isEmpty = true
    · rw [if_pos hE]
    · rw [if_neg hE]
  · intro fmt hf hne
    cases hf
    have hE : ¬((read_inventory fd inv).2.isEmpty = true) := by
      rw [List.isEmpty_iff]; exact hne
    simp only [mainCli]
    rw [if_neg hE]
    cases fmt with
    | json => rfl
    | yaml => rfl

theorem export_format_behavior_witness :
    mainCli ⟨CliAction.export, none, none, none, none, none,
        some ExportFormat.json, some "out.json".data, "inventory.csv".data⟩
      (.present (linesOf (csvRender ["Name".data] [["sw1".data]])))
      (fun _ => none)
      = .ok ⟨(read_inventory (.present (linesOf (csvRender ["Name".data]
            [["sw1".data]]))) "inventory.csv".data).1 ++
          (writeOf ExportFormat.json (fun _ => none)
            (read_inventory (.present (linesOf (csvRender ["Name".data]
              [["sw1".data]]))) "inventory.csv".data).2
            (pyOr (some "out.json".data)
              (defaultName ExportFormat.json))).printed,
          (writeOf ExportFormat.json (fun _ => none)
            (read_inventory (.present (linesOf (csvRender ["Name".data]
              [["sw1".data]]))) "inventory.csv".data).2
            (pyOr (some "out.json".data)
              (defaultName ExportFormat.json))).writes⟩ :=
  (export_format_behavior _ _ _ rfl).2 ExportFormat.json rfl (by decide)

/-- C9: on `add`, whatever the `--name`/`--ip`/`--user`/`--password`/`--desc`
flags hold, `main` reaches neither `if` branch: it reads nothing, prints
nothing and writes no file, so no record is appended and every file is left
unchanged. -/
theorem main_add_no_persistence (args : Args) (fd : FileData) (wenv : WEnv)
    (h : args.action = CliAction.add) :
    mainCli args fd wenv = .ok ⟨[], []⟩ := by
  obtain ⟨act, nm, ip, us, pw, de, fm, out, inv⟩ := args
  cases h
  rfl

theorem main_add_no_persistence_witness :
    mainCli ⟨CliAction.add, some "sw9".data, some "10.0.0.9".data,
        some "admin".data, some "pw".data, some "lab".data, none, none,
        "inventory.csv".data⟩ .absent (fun _ => none) = .ok ⟨[], []⟩ :=
  main_add_no_persistence _ _ _ rfl

/-- C10: on `export`, when loading yields no records — the inventory file
missing, unreadable, or holding no data rows — `main` writes no file and
prints nothing beyond the loader's own diagnostics: the export action is a
silent no-op on an empty inventory. -/
theorem main_export_empty_noop (args : Args) (fd : FileData) (wenv : WEnv)
    (h : args.action = CliAction.export)
    (hempty : (read_inventory fd args.inventory).2 = []) :
    mainCli args fd wenv = .ok ⟨(read_inventory fd args.inventory).1, []⟩ := by
  obtain ⟨act, nm, ip, us, pw, de, fm, out, inv⟩ := args
  cases h
  simp only [mainCli]
  rw [if_pos (List.isEmpty_iff.mpr hempty)]

theorem main_export_empty_noop_witness :
    (read_inventory FileData.absent "missing.csv".data).2 = [] ∧
    mainCli ⟨CliAction.export, none, none, none, none, none,
        some ExportFormat.json, none, "missing.csv".data⟩ .absent
        (fun _ => none)
      = .ok ⟨(read_inventory FileData.absent "missing.csv".data).1, []⟩ :=
  ⟨rfl, main_export_empty_noop _ _ _ rfl rfl⟩
